import Mathlib

/-!
Verification development for the `bm_mdp` benchmark
(`mdp_opt2.py` / `mdp_opt3.py`): a bounded interval value-iteration
engine over a lazily discovered combat-resolution Markov process.

The Python program is shallowly embedded: Python `int` becomes `ℕ`
(with `ℤ` at the one place a negative intermediate occurs), Python
`float` becomes `ℚ` (all the float constants of the source —
`64.0/130.0`, `0.5`, `1.0` … — are exact model rationals), Python
dicts become association lists in insertion order, and the two
unbounded `while` loops (the solver sweep loop and the traversal
loops) take an explicit fuel argument.
-/

/-! ## Damage model: `stats_t`, `fixeddata_t`, `halfstate_t` -/

/-- `stats_t = namedtuple('stats_t', ['atk', 'df', 'speed', 'spec'])`. -/
structure Stats where
  atk : ℕ
  df : ℕ
  speed : ℕ
  spec : ℕ
deriving DecidableEq

/-- `NOMODS = stats_t(0, 0, 0, 0)`. -/
def NOMODS : Stats := ⟨0, 0, 0, 0⟩

/-- Positional indexing `stats[i]` on the 4-tuple (indices 0,1,3 are used). -/
def Stats.idx (s : Stats) : ℕ → ℕ
  | 0 => s.atk
  | 1 => s.df
  | 2 => s.speed
  | _ => s.spec

/-- `fixeddata_t = namedtuple(..., ['maxhp', 'stats', 'lvl', 'badges', 'basespeed'])`.
`badges` is a 4-tuple of 0/1 flags (the char side uses the plain tuple
`(1, 0, 0, 0)`, the star side reuses `NOMODS`; both are 4-tuples of ints). -/
structure FixedData where
  maxhp : ℕ
  stats : Stats
  lvl : ℕ
  badges : Stats
  basespeed : ℕ
deriving DecidableEq

/-- `halfstate_t = namedtuple(..., ['fixed', 'hp', 'status', 'statmods', 'stats'])`. -/
structure HalfState where
  fixed : FixedData
  hp : ℕ
  status : ℕ
  statmods : Stats
  stats : Stats
deriving DecidableEq

/-- A game state is the 3-tuple `(me_halfstate, them_halfstate, extra)`. -/
abbrev GameState := HalfState × HalfState × ℕ

/-- `plus12(x) = x + x // 8`. -/
def plus12 (x : ℕ) : ℕ := x + x / 8

/-- One component of `applyBadgeBoosts`: `plus12(x) if b else x`. -/
def badgeBoost (b x : ℕ) : ℕ := if b ≠ 0 then plus12 x else x

/-- `applyBadgeBoosts(badges, stats)`: boost each stat whose badge flag is set. -/
def applyBadgeBoosts (badges stats : Stats) : Stats :=
  ⟨badgeBoost badges.atk stats.atk, badgeBoost badges.df stats.df,
   badgeBoost badges.speed stats.speed, badgeBoost badges.spec stats.spec⟩

/-- `applyHPChange(hstate, change)`:
`hp = min(hstate.fixed.maxhp, max(0, hstate.hp + change))`.
The intermediate `hp + change` can be negative, hence the `ℤ` arithmetic. -/
def applyHPChange (h : HalfState) (change : ℤ) : HalfState :=
  { h with hp := (min (h.fixed.maxhp : ℤ) (max 0 ((h.hp : ℤ) + change))).toNat }

/-- `getDamages(L, A, D, B, stab, te)`: the fixed integer damage formula,
`//` is Python floor division on non-negative ints (= `Nat.div`), and
`int(x * te)` truncates the exact product `x * te` (non-negative, so
truncation = floor).  `range(217, 256)` has the 39 elements `217..255`. -/
def getDamages (L A D B : ℕ) (stab : Bool) (te : ℚ) : List ℕ :=
  let x1 := 2 * L / 5
  let x2 := (x1 + 2) * A * B / (D * 50) + 2
  let x3 := if stab then x2 + x2 / 2 else x2
  let x4 := ((x3 : ℚ) * te).floor.toNat
  (List.range 39).map fun z => x4 * (217 + z) / 255

/-- `dist[k] = dist.get(k, 0.0) + v` on a Python dict modelled as an
association list in insertion order: an existing key keeps its position,
a new key is appended. -/
def dictAdd {α : Type} [DecidableEq α] : List (α × ℚ) → α → ℚ → List (α × ℚ)
  | [], k, v => [(k, v)]
  | (k', v') :: rest, k, v =>
      if k = k' then (k', v' + v) :: rest else (k', v') :: dictAdd rest k v

/-- `getCritDist(L, p, A1, A2, D1, D2, B, stab, te)`: blend the normal and
critical (doubled level) damage lists into one probability mass function. -/
def getCritDist (L : ℕ) (p : ℚ) (A1 A2 D1 D2 B : ℕ) (stab : Bool) (te : ℚ) :
    List (ℕ × ℚ) :=
  let p' := min p 1
  let norm := getDamages L A1 D1 B stab te
  let crit := getDamages (L * 2) A2 D2 B stab te
  let multNorm := (1 - p') / (norm.length : ℚ)
  let multCrit := p' / (crit.length : ℚ)
  let d1 := norm.foldl (fun d x => dictAdd d x multNorm) []
  crit.foldl (fun d x => dictAdd d x multCrit) d1

/-! ## Actions and the transition function -/

/-- The action labels of the source (`attack_data` keys plus
`'Super Potion'`).  Constructor order is the lexicographic order of the
source's strings: `'Bubblebeam' < 'Dig' < 'Ember' < 'Slash' <
'Super Potion' < 'Water Gun'`, which matters for the sort tie-breaks. -/
inductive Act
  | bubblebeam
  | dig
  | ember
  | slash
  | superPotion
  | waterGun
deriving DecidableEq

/-- Rank of an action in the string order of its source label. -/
def Act.idx : Act → ℕ
  | .bubblebeam => 0
  | .dig => 1
  | .ember => 2
  | .slash => 3
  | .superPotion => 4
  | .waterGun => 5

/-- `attack_stats_t = namedtuple(..., ['power', 'isspec', 'stab', 'te', 'crit'])`. -/
structure AttackStats where
  power : ℕ
  isspec : Bool
  stab : Bool
  te : ℚ
  crit : Bool
deriving DecidableEq

/-- The `attack_data` dict.  `'Super Potion'` is not a key of the source
dict and is never looked up (the potion branch returns first); it is
mapped to a dummy entry here only to keep the function total. -/
def attack_data : Act → AttackStats
  | .ember => ⟨40, true, true, 1/2, false⟩
  | .dig => ⟨100, false, false, 1, false⟩
  | .slash => ⟨70, false, false, 1, true⟩
  | .waterGun => ⟨40, true, true, 2, false⟩
  | .bubblebeam => ⟨65, true, true, 2, false⟩
  | .superPotion => ⟨0, false, false, 0, false⟩

/-- `_applyActionSide1(state, act)`: side 0 acts.  `'Super Potion'` heals
50 (clamped) with probability 1; an attack maps each damage roll to the
defender losing that much HP (clamped at 0), accumulating probabilities
of coinciding successors in dict order. -/
def applyActionSide1 (s : GameState) (act : Act) : List (GameState × ℚ) :=
  let me := s.1
  let them := s.2.1
  let extra := s.2.2
  if act = .superPotion then [((applyHPChange me 50, them, extra), 1)]
  else
    let m := attack_data act
    let aind := if m.isspec then 3 else 0
    let dind := if m.isspec then 3 else 1
    let pdiv : ℚ := if m.crit then 64 else 512
    let dmgDist := getCritDist me.fixed.lvl ((me.fixed.basespeed : ℚ) / pdiv)
        (me.stats.idx aind) (me.fixed.stats.idx aind)
        (them.stats.idx dind) (them.fixed.stats.idx dind)
        m.power m.stab m.te
    dmgDist.foldl
      (fun d xp => dictAdd d (me, applyHPChange them (-(xp.1 : ℤ)), extra) xp.2) []

/-- Swap the two half-states of a game state (`(k[1], k[0], k[2])`). -/
def swapGS (s : GameState) : GameState := (s.2.1, s.1, s.2.2)

/-- `_applyAction(state, side, act)`: side 0 directly, side 1 by swapping,
applying as side 0, and swapping every resulting key back. -/
def applyAction (s : GameState) (side : ℕ) (act : Act) : List (GameState × ℚ) :=
  if side = 0 then applyActionSide1 s act
  else (applyActionSide1 (swapGS s) act).map fun kv => (swapGS kv.1, kv.2)

/-! ## Graph keys and successor lists -/

/-- The `statep` keys of the source, discriminated by the leading tag:
`(0, state)`, `(1, state, action)`, `(2, state, side, action)`, `(4, bool)`. -/
inductive Key
  | propose (s : GameState)
  | moveSel (s : GameState) (act : Act)
  | outcome (s : GameState) (side : ℕ) (act : Act)
  | term (w : Bool)
deriving DecidableEq

/-- `self.win = (4, True)`. -/
def winKey : Key := .term true

/-- `self.loss = (4, False)`. -/
def lossKey : Key := .term false

/-- Classify a successor state inside `_applyActionPair`:
loss if our HP is 0, win if theirs is, otherwise a tag-2 key. -/
def classifyPair (ns : GameState) (side2 : ℕ) (act2 : Act) : Key :=
  if ns.1.hp = 0 then lossKey
  else if ns.2.1.hp = 0 then winKey
  else .outcome ns side2 act2

/-- Classify a successor state inside `_getSuccessorsC`. -/
def classifyC (ns : GameState) : Key :=
  if ns.1.hp = 0 then lossKey
  else if ns.2.1.hp = 0 then winKey
  else .propose ns

/-- `_applyActionPair(state, side1, act1, side2, act2, dist, pmult)`. -/
def applyActionPair (state : GameState) (side1 : ℕ) (act1 : Act) (side2 : ℕ)
    (act2 : Act) (dist : List (Key × ℚ)) (pmult : ℚ) : List (Key × ℚ) :=
  (applyAction state side1 act1).foldl
    (fun d nsp => dictAdd d (classifyPair nsp.1 side2 act2) (nsp.2 * pmult)) dist

/-! ### The sort used by `_getSuccessorsB` / `_getSuccessorsC`

Python sorts `dist.items()` by the key `(-probability, statep)`, where
`statep` tuples are compared lexicographically (ints numerically, action
strings lexicographically, `False < True`).  Each key is flattened to a
`List ℕ` so that the Python tuple order becomes the lexicographic order
on those vectors: two keys with the same tag yield equal-length vectors
compared componentwise, two keys with different tags are decided by the
leading tag component, exactly as in Python. -/

/-- Flatten `stats_t` in field order. -/
def Stats.vec (s : Stats) : List ℕ := [s.atk, s.df, s.speed, s.spec]

/-- Flatten `fixeddata_t` in field order. -/
def FixedData.vec (f : FixedData) : List ℕ :=
  f.maxhp :: f.stats.vec ++ f.lvl :: f.badges.vec ++ [f.basespeed]

/-- Flatten `halfstate_t` in field order. -/
def HalfState.vec (h : HalfState) : List ℕ :=
  h.fixed.vec ++ h.hp :: h.status :: h.statmods.vec ++ h.stats.vec

/-- Flatten a game state in field order. -/
def gsVec (s : GameState) : List ℕ := s.1.vec ++ s.2.1.vec ++ [s.2.2]

/-- Flatten a `statep` key, leading with its integer tag. -/
def Key.vec : Key → List ℕ
  | .propose s => 0 :: gsVec s
  | .moveSel s a => 1 :: gsVec s ++ [a.idx]
  | .outcome s side a => 2 :: gsVec s ++ [side, a.idx]
  | .term w => [4, if w then 1 else 0]

/-- Lexicographic `≤` on flattened tuples (Python sequence comparison). -/
def vecLe : List ℕ → List ℕ → Bool
  | [], _ => true
  | _ :: _, [] => false
  | a :: as_, b :: bs => if a < b then true else if b < a then false else vecLe as_ bs

/-- The Python sort key `(-probability, statep)` as a boolean `≤`:
higher probability first, ties by ascending key tuple. -/
def pairLe (x y : Key × ℚ) : Bool :=
  if y.2 < x.2 then true
  else if x.2 < y.2 then false
  else vecLe x.1.vec y.1.vec

/-- `sorted(dist.items(), key=lambda t: (-t[1], t[0]))`.  `pairLe` is a
total order that is antisymmetric on lists with distinct keys (as dict
item lists are), so any sort wrt it produces the Python output. -/
def sortPairs (l : List (Key × ℚ)) : List (Key × ℚ) :=
  List.insertionSort (fun a b => pairLe a b = true) l

/-- The body of the `for eact, p in ...` loop of `_getSuccessorsB`:
resolve initiative by effective speed (the potion gets a +10000 priority
bonus), splitting 50/50 on a tie. -/
def succBStep (state : GameState) (action : Act) (d : List (Key × ℚ))
    (ep : Act × ℚ) : List (Key × ℚ) :=
  let priority1 := state.1.stats.speed + (if action = .superPotion then 10000 else 0)
  let priority2 := state.2.1.stats.speed
  if priority1 > priority2 then
    applyActionPair state 0 action 1 ep.1 d ep.2
  else if priority1 < priority2 then
    applyActionPair state 1 ep.1 0 action d ep.2
  else
    applyActionPair state 1 ep.1 0 action
      (applyActionPair state 0 action 1 ep.1 d (ep.2 * (1/2))) (ep.2 * (1/2))

/-- `_getSuccessorsB(statep)` for `statep = (1, state, action)`: resolve
initiative against the enemy's two weighted responses
(`('Water Gun', 64.0/130.0)`, `('Bubblebeam', 66.0/130.0)`), then sort. -/
def getSuccessorsB (state : GameState) (action : Act) : List (Key × ℚ) :=
  sortPairs ([((.waterGun : Act), (64/130 : ℚ)), (.bubblebeam, 66/130)].foldl
    (succBStep state action) [])

/-- `_getSuccessorsC(statep)` for `statep = (2, state, side, action)`. -/
def getSuccessorsC (state : GameState) (side : ℕ) (action : Act) : List (Key × ℚ) :=
  sortPairs ((applyAction state side action).foldl
    (fun d nsp => dictAdd d (classifyC nsp.1) nsp.2) [])

/-! ## The node shapes and the successor graph

`getSuccessors` classifies a key by its tag: tag 0 is a choice node with
the fixed two-action menu (`_getSuccessorsA`, always exactly two
successors, encoded head + tail), tags 1 and 2 are chance nodes with
sorted `(key, probability)` outcome lists, tag 4 is terminal.  The
source memoizes each key's successor list; the memo is semantically
transparent (the computation is pure), so the model recomputes. -/

inductive Node (κ : Type)
  | choice (s0 : κ) (rest : List κ)
  | chance (outs : List (κ × ℚ))
  | terminal

/-- The successor structure of the battle graph (`Battle.getSuccessors`). -/
def battleG : Key → Node Key
  | .propose s => .choice (.moveSel s .dig) [.moveSel s .superPotion]
  | .moveSel s a => .chance (getSuccessorsB s a)
  | .outcome s side a => .chance (getSuccessorsC s side a)
  | .term _ => .terminal

/-- `getSuccessorsList`: the successor keys only (`[]` for tag 4). -/
def succOf {κ : Type} (Gr : κ → Node κ) (k : κ) : List κ :=
  match Gr k with
  | .choice s0 rest => s0 :: rest
  | .chance outs => outs.map (·.1)
  | .terminal => []

/-! ## `topoSort`: explicit-stack post-order traversal with fuel

The Python stack grows at the end and pops from the end; the model uses
the list head as the stack top (so pushes prepend, and a block push is
reversed).  `visited` is the Python set, `results` the output list. -/

def topoAux {κ : Type} [DecidableEq κ] (next : κ → List κ) :
    ℕ → List (κ × Bool) → List κ → List κ → Option (List κ)
  | _, [], _, results => some results
  | 0, _ :: _, _, _ => none
  | fuel + 1, (cur, st) :: rest, visited, results =>
      if st then topoAux next fuel rest visited (results ++ [cur])
      else if cur ∈ visited then topoAux next fuel rest visited results
      else topoAux next fuel
        (((next cur).map fun p => (p, false)).reverse ++ (cur, true) :: rest)
        (cur :: visited) results

/-- `topoSort(roots, getParents)` with explicit fuel (`none` = fuel ran
out before the stack emptied; the Python loop just keeps going). -/
def topoSortF {κ : Type} [DecidableEq κ] (next : κ → List κ) (fuel : ℕ)
    (roots : List κ) : Option (List κ) :=
  topoAux next fuel ((roots.map fun r => (r, false)).reverse) [] []

/-! ## The interval solver state and sweep (`Battle.evaluate` main loop) -/

/-- Per-key solver state: the `self.min` / `self.max` defaultdicts as
total functions and the `self.frozen` set as a boolean predicate. -/
structure SState (κ : Type) where
  dmin : κ → ℚ
  dmax : κ → ℚ
  frozen : κ → Bool

/-- Pointwise function update (one defaultdict store). -/
def fupd {κ : Type} [DecidableEq κ] (f : κ → ℚ) (k : κ) (v : ℚ) : κ → ℚ :=
  fun j => if j = k then v else f j

/-- The per-node recompute of the sweep body applied to a value vector
`v` (the source runs it once with `v = dmin` for `best_min`/`smin` and
once with `v = dmax` for `best_max`/`smax`): a choice node takes the
running max over its (always nonempty) successor list — the source
starts the scan at `-inf`, which for a nonempty list is the plain max
started at the first element — and a chance node takes the
probability-weighted running sum `s += v[j] * p` started at `0.0`. -/
def FV {κ : Type} (Gr : κ → Node κ) (v : κ → ℚ) (k : κ) : ℚ :=
  match Gr k with
  | .choice s0 rest => rest.foldl (fun a j => max a (v j)) (v s0)
  | .chance outs => outs.foldl (fun a jp => a + v jp.1 * jp.2) 0
  | .terminal => v k

/-- One iteration of the inner sweep for key `k` (`mdp_opt2.py` operator
order: the frozen check, the per-kind recompute of both bounds via `FV`,
then the freeze guard
`if dmin[sp] >= dmax[sp]: mid = (dmin[sp] + dmax[sp]) / 2.0`).
The terminal case never runs unfrozen in the source (`(4, _)` keys are
frozen in `__init__`); it performs no recompute, like the `mdp_opt3.py`
dispatch. -/
def updateKey {κ : Type} [DecidableEq κ] (Gr : κ → Node κ) (s : SState κ)
    (k : κ) : SState κ :=
  if s.frozen k then s
  else
    let s1 : SState κ :=
      match Gr k with
      | .terminal => s
      | _ => ⟨fupd s.dmin k (FV Gr s.dmin k), fupd s.dmax k (FV Gr s.dmax k),
              s.frozen⟩
    if s1.dmax k ≤ s1.dmin k then
      let mid := (s1.dmin k + s1.dmax k) / 2
      ⟨fupd s1.dmin k mid, fupd s1.dmax k mid,
       fun j => if j = k then true else s1.frozen j⟩
    else s1

/-- One sweep over the fixed elimination order. -/
def sweep {κ : Type} [DecidableEq κ] (Gr : κ → Node κ) (order : List κ)
    (s : SState κ) : SState κ :=
  order.foldl (updateKey Gr) s

/-- The fueled `while dmax[root] - dmin[root] > tolerance` loop. -/
def loopN {κ : Type} [DecidableEq κ] (Gr : κ → Node κ) (order : List κ)
    (root : κ) (tol : ℚ) : ℕ → SState κ → SState κ
  | 0, s => s
  | fuel + 1, s =>
      if tol < s.dmax root - s.dmin root then
        loopN Gr order root tol fuel (sweep Gr order s)
      else s

/-- `Battle.__init__`: `min` defaults to 0.0 with `min[win] = 1.0`,
`max` defaults to 1.0 with `max[loss] = 0.0`, `frozen = {win, loss}`,
generic in the two terminal keys. -/
def initSState {κ : Type} [DecidableEq κ] (wk lk : κ) : SState κ :=
  ⟨fun k => if k = wk then 1 else 0,
   fun k => if k = lk then 0 else 1,
   fun k => decide (k = wk) || decide (k = lk)⟩

/-- `Battle.evaluate` of `mdp_opt2.py`, generic in the successor graph:
order the keys by `topoSort`, sweep until the root interval closes below
tolerance, return the midpoint.  `fuelT` bounds the traversal, `fuelL`
the number of sweeps. -/
def evaluateMap {κ : Type} [DecidableEq κ] (Gr : κ → Node κ) (root wk lk : κ)
    (tol : ℚ) (fuelT fuelL : ℕ) : ℚ :=
  let order := (topoSortF (succOf Gr) fuelT [root]).getD []
  let s := loopN Gr order root tol fuelL (initSState wk lk)
  (s.dmax root + s.dmin root) / 2

/-! ## The concrete battle instance (`Battle.evaluate` fixed setup) -/

/-- `badges = (1, 0, 0, 0)`. -/
def charBadges : Stats := ⟨1, 0, 0, 0⟩

/-- `starfixed = fixeddata_t(59, stats_t(40, 44, 56, 50), 11, NOMODS, 115)`. -/
def starfixed : FixedData := ⟨59, ⟨40, 44, 56, 50⟩, 11, NOMODS, 115⟩

/-- `starhalf = halfstate_t(starfixed, 59, 0, NOMODS, stats_t(40, 44, 56, 50))`. -/
def starhalf : HalfState := ⟨starfixed, 59, 0, NOMODS, ⟨40, 44, 56, 50⟩⟩

/-- `charfixed = fixeddata_t(63, stats_t(39, 34, 46, 38), 26, badges, 65)`. -/
def charfixed : FixedData := ⟨63, ⟨39, 34, 46, 38⟩, 26, charBadges, 65⟩

/-- `charhalf`, with the badge-boosted effective stats. -/
def charhalf : HalfState :=
  ⟨charfixed, 63, 0, NOMODS, applyBadgeBoosts charBadges ⟨39, 34, 46, 38⟩⟩

/-- `initial_state = (charhalf, starhalf, 0)`. -/
def initialState : GameState := (charhalf, starhalf, 0)

/-- `initial_statep = (0, initial_state)`. -/
def initKeyB : Key := .propose initialState

/-- `Battle().evaluate(tolerance)` of `mdp_opt2.py` on the fixed setup. -/
def evaluateModel (tol : ℚ) (fuelT fuelL : ℕ) : ℚ :=
  evaluateMap battleG initKeyB winKey lossKey tol fuelT fuelL

/-- States of the fueled sweep loop of `Battle.evaluate` on the real
graph: `loopIterB order tol n` is the solver state after `n` conditional
sweeps (the run visits exactly these states for the `topoSort` order). -/
def loopIterB (order : List Key) (tol : ℚ) (n : ℕ) : SState Key :=
  loopN battleG order initKeyB tol n (initSState winKey lossKey)

/-! ## Sums of dict values (probability conservation) -/

/-- Sum of the probability values of a dict / outcome list. -/
def sumVals {α : Type} (l : List (α × ℚ)) : ℚ := (l.map (·.2)).sum

theorem sumVals_dictAdd {α : Type} [DecidableEq α] (d : List (α × ℚ)) (k : α)
    (v : ℚ) : sumVals (dictAdd d k v) = sumVals d + v := by
  induction d with
  | nil => simp [dictAdd, sumVals]
  | cons kv rest ih =>
      obtain ⟨k', v'⟩ := kv
      by_cases h : k = k' <;> simp [dictAdd, h, sumVals] at ih ⊢ <;> ring_nf
      rw [ih]; ring

theorem sumVals_foldl_dictAdd {α β : Type} [DecidableEq α] (l : List β)
    (f : β → α) (g : β → ℚ) (d0 : List (α × ℚ)) :
    sumVals (l.foldl (fun d x => dictAdd d (f x) (g x)) d0) =
      sumVals d0 + (l.map g).sum := by
  induction l generalizing d0 with
  | nil => simp
  | cons x xs ih => simp [ih, sumVals_dictAdd]; ring

theorem sum_map_const {β : Type} (l : List β) (c : ℚ) :
    (l.map fun _ => c).sum = l.length * c := by
  induction l with
  | nil => simp
  | cons x xs ih => simp [ih]; ring

theorem getDamages_length (L A D B : ℕ) (stab : Bool) (te : ℚ) :
    (getDamages L A D B stab te).length = 39 := by
  simp [getDamages]

theorem getCritDist_sum (L : ℕ) (p : ℚ) (A1 A2 D1 D2 B : ℕ) (stab : Bool)
    (te : ℚ) : sumVals (getCritDist L p A1 A2 D1 D2 B stab te) = 1 := by
  unfold getCritDist
  rw [sumVals_foldl_dictAdd, sumVals_foldl_dictAdd]
  rw [sum_map_const, sum_map_const, getDamages_length, getDamages_length]
  simp [sumVals]
  ring

theorem sumVals_map_keys {α β : Type} (l : List (α × ℚ)) (f : α → β) :
    sumVals (l.map fun kv => (f kv.1, kv.2)) = sumVals l := by
  simp [sumVals, List.map_map, Function.comp_def]

theorem applyActionSide1_sum (s : GameState) (a : Act) :
    sumVals (applyActionSide1 s a) = 1 := by
  unfold applyActionSide1
  by_cases h : a = .superPotion
  · simp [h, sumVals]
  · simp only [h, if_false]
    rw [sumVals_foldl_dictAdd]
    have := getCritDist_sum s.1.fixed.lvl
      ((s.1.fixed.basespeed : ℚ) / (if (attack_data a).crit then 64 else 512))
      (s.1.stats.idx (if (attack_data a).isspec then 3 else 0))
      (s.1.fixed.stats.idx (if (attack_data a).isspec then 3 else 0))
      (s.2.1.stats.idx (if (attack_data a).isspec then 3 else 1))
      (s.2.1.fixed.stats.idx (if (attack_data a).isspec then 3 else 1))
      (attack_data a).power (attack_data a).stab (attack_data a).te
    simp [sumVals] at this ⊢
    rw [this]

theorem applyAction_sum (s : GameState) (side : ℕ) (a : Act) :
    sumVals (applyAction s side a) = 1 := by
  unfold applyAction
  by_cases h : side = 0
  · simp [h, applyActionSide1_sum]
  · simp only [h, if_false]
    rw [sumVals_map_keys, applyActionSide1_sum]

theorem applyActionPair_sum (state : GameState) (side1 : ℕ) (act1 : Act)
    (side2 : ℕ) (act2 : Act) (dist : List (Key × ℚ)) (pmult : ℚ) :
    sumVals (applyActionPair state side1 act1 side2 act2 dist pmult) =
      sumVals dist + pmult := by
  unfold applyActionPair
  rw [sumVals_foldl_dictAdd]
  have : ((applyAction state side1 act1).map fun nsp => nsp.2 * pmult).sum =
      sumVals (applyAction state side1 act1) * pmult := by
    simp [sumVals, List.sum_map_mul_right]
  rw [this, applyAction_sum, one_mul]

theorem sortPairs_perm (l : List (Key × ℚ)) : List.Perm (sortPairs l) l :=
  List.perm_insertionSort _ l

theorem sumVals_of_perm {α : Type} {l l' : List (α × ℚ)} (h : List.Perm l l') :
    sumVals l = sumVals l' := by
  unfold sumVals
  exact (h.map _).sum_eq

theorem succBStep_sum (state : GameState) (action : Act) (d : List (Key × ℚ))
    (ep : Act × ℚ) :
    sumVals (succBStep state action d ep) = sumVals d + ep.2 := by
  simp only [succBStep]
  split_ifs <;> simp only [applyActionPair_sum] <;> ring

theorem getSuccessorsB_sum (state : GameState) (action : Act) :
    sumVals (getSuccessorsB state action) = 1 := by
  unfold getSuccessorsB
  rw [sumVals_of_perm (sortPairs_perm _)]
  simp only [List.foldl_cons, List.foldl_nil, succBStep_sum]
  simp [sumVals]
  norm_num

theorem getSuccessorsC_sum (state : GameState) (side : ℕ) (action : Act) :
    sumVals (getSuccessorsC state side action) = 1 := by
  unfold getSuccessorsC
  rw [sumVals_of_perm (sortPairs_perm _)]
  rw [sumVals_foldl_dictAdd]
  have : sumVals (applyAction state side action) = 1 := applyAction_sum _ _ _
  simp [sumVals] at this ⊢
  rw [this]

/-! ## Positivity hypotheses of C2 -/

/-- All four stat components are positive. -/
def PosStats (st : Stats) : Prop :=
  0 < st.atk ∧ 0 < st.df ∧ 0 < st.speed ∧ 0 < st.spec

/-- A combatant has positive effective stats, base stats and level. -/
def PosHalf (h : HalfState) : Prop :=
  PosStats h.stats ∧ PosStats h.fixed.stats ∧ 0 < h.fixed.lvl

/-- Both combatants of a game state have positive stats and level. -/
def PosGS (s : GameState) : Prop := PosHalf s.1 ∧ PosHalf s.2.1

instance (st : Stats) : Decidable (PosStats st) := by unfold PosStats; infer_instance

instance (h : HalfState) : Decidable (PosHalf h) := by unfold PosHalf; infer_instance

instance (s : GameState) : Decidable (PosGS s) := by unfold PosGS; infer_instance

/-- C2.  For every game state with positive stats and level and every
action, the probability values returned by `_applyAction` sum to 1
within `1e-9` (the model sum is exactly 1), and consequently so do the
outcome probabilities of every Chance-shaped successor list produced by
`_getSuccessorsB` and `_getSuccessorsC`. -/
theorem claim_C2 :
    (∀ (s : GameState) (side : ℕ) (a : Act), PosGS s →
      |sumVals (applyAction s side a) - 1| ≤ 1 / 1000000000) ∧
    (∀ (s : GameState) (a : Act), PosGS s →
      |sumVals (getSuccessorsB s a) - 1| ≤ 1 / 1000000000) ∧
    (∀ (s : GameState) (side : ℕ) (a : Act), PosGS s →
      |sumVals (getSuccessorsC s side a) - 1| ≤ 1 / 1000000000) := by
  refine ⟨fun s side a _ => ?_, fun s a _ => ?_, fun s side a _ => ?_⟩ <;>
    simp [applyAction_sum, getSuccessorsB_sum, getSuccessorsC_sum]

/-- Witness for C2 at the fixed initial state. -/
theorem claim_C2_witness :
    PosGS initialState ∧
      |sumVals (applyAction initialState 0 .dig) - 1| ≤ 1 / 1000000000 :=
  ⟨by decide, claim_C2.1 initialState 0 .dig (by decide)⟩

/-! ## C6: the side swap -/

/-- Python dict lookup on the association-list model. -/
def dlookup {α : Type} [DecidableEq α] : List (α × ℚ) → α → Option ℚ
  | [], _ => none
  | (k', v) :: rest, k => if k = k' then some v else dlookup rest k

theorem dlookup_map_invol {α : Type} [DecidableEq α] (f : α → α)
    (hf : ∀ x, f (f x) = x) (l : List (α × ℚ)) (k : α) :
    dlookup (l.map fun kv => (f kv.1, kv.2)) k = dlookup l (f k) := by
  induction l with
  | nil => rfl
  | cons kv rest ih =>
      obtain ⟨k1, v⟩ := kv
      have : k = f k1 ↔ f k = k1 := by
        constructor
        · intro h; rw [h, hf]
        · intro h; rw [← h, hf]
      by_cases h : f k = k1
      · simp [dlookup, h, this.mpr h, hf]
      · have h' : ¬(k = f k1) := fun hc => h (this.mp hc)
        simp [dlookup, h, h', ih]

/-- C6.  Swapping the two half-states is exactly self-inverse, and the
side-1 transition is the side-0 transition conjugated by the swap: the
probability `_applyAction(state, 1, act)` assigns to any key `k` is the
probability `_applyActionSide1(swap state, act)` assigns to `swap k`. -/
theorem claim_C6 :
    (∀ s : GameState, swapGS (swapGS s) = s) ∧
    (∀ (s : GameState) (a : Act) (k : GameState),
      dlookup (applyAction s 1 a) k =
        dlookup (applyActionSide1 (swapGS s) a) (swapGS k)) := by
  constructor
  · intro s; rfl
  · intro s a k
    have h1 : (1 : ℕ) ≠ 0 := one_ne_zero
    simp only [applyAction, h1, if_false]
    exact dlookup_map_invol swapGS (fun _ => rfl) _ k

/-! ## C10: tolerances at least 1 cause zero sweeps -/

theorem initB_root_dmax :
    (initSState winKey lossKey).dmax initKeyB = 1 := by
  have : initKeyB ≠ lossKey := by decide
  simp [initSState, this]

theorem initB_root_dmin :
    (initSState winKey lossKey).dmin initKeyB = 0 := by
  have : initKeyB ≠ winKey := by decide
  simp [initSState, this]

theorem loopN_eq_of_cond_false {κ : Type} [DecidableEq κ] (Gr : κ → Node κ)
    (order : List κ) (root : κ) (tol : ℚ) (s : SState κ)
    (h : ¬ tol < s.dmax root - s.dmin root) :
    ∀ n, loopN Gr order root tol n s = s := by
  intro n
  cases n with
  | zero => rfl
  | succ n => simp [loopN, h]

/-- C10.  For every tolerance ≥ 1 the solver's while-condition fails
before the first sweep (the root interval starts at `[0, 1]`), so the
loop state stays the `__init__` state and `evaluate` returns exactly
`(1.0 + 0.0) / 2.0 = 0.5`. -/
theorem claim_C10 : ∀ tol : ℚ, 1 ≤ tol →
    ∀ (fuelT fuelL n : ℕ) (order : List Key),
      loopIterB order tol n = initSState winKey lossKey ∧
      evaluateModel tol fuelT fuelL = 1 / 2 := by
  intro tol htol fuelT fuelL n order
  have hcond : ¬ tol < (initSState winKey lossKey).dmax initKeyB -
      (initSState winKey lossKey).dmin initKeyB := by
    rw [initB_root_dmax, initB_root_dmin]
    simp only [sub_zero, not_lt]
    exact htol
  constructor
  · exact loopN_eq_of_cond_false _ _ _ _ _ hcond n
  · show evaluateMap battleG initKeyB winKey lossKey tol fuelT fuelL = 1 / 2
    simp only [evaluateMap]
    rw [loopN_eq_of_cond_false _ _ _ _ _ hcond, initB_root_dmax, initB_root_dmin]
    norm_num

/-- Witness for C10 at `tolerance = 1`. -/
theorem claim_C10_witness :
    (1 : ℚ) ≤ 1 ∧
      (loopIterB [] 1 3 = initSState winKey lossKey ∧
        evaluateModel 1 0 0 = 1 / 2) :=
  ⟨le_refl 1, claim_C10 1 (le_refl 1) 0 0 3 []⟩

/-! ## C3: frozen keys keep their bounds forever -/

theorem updateKey_frozen_pres {κ : Type} [DecidableEq κ] (Gr : κ → Node κ)
    (s : SState κ) (k j : κ) (hj : s.frozen j = true) :
    (updateKey Gr s k).frozen j = true ∧
    (updateKey Gr s k).dmin j = s.dmin j ∧
    (updateKey Gr s k).dmax j = s.dmax j := by
  by_cases hk : s.frozen k = true
  · simp [updateKey, hk, hj]
  · have hjk : j ≠ k := fun h => hk (h ▸ hj)
    simp only [updateKey, hk, Bool.false_eq_true, if_false]
    cases hG : Gr k <;>
      simp only [hG] <;> split_ifs <;> simp_all [fupd, hjk]

theorem sweep_frozen_pres {κ : Type} [DecidableEq κ] (Gr : κ → Node κ)
    (order : List κ) (s : SState κ) (j : κ) (hj : s.frozen j = true) :
    (sweep Gr order s).frozen j = true ∧
    (sweep Gr order s).dmin j = s.dmin j ∧
    (sweep Gr order s).dmax j = s.dmax j := by
  induction order generalizing s with
  | nil => exact ⟨hj, rfl, rfl⟩
  | cons k ks ih =>
      have h1 := updateKey_frozen_pres Gr s k j hj
      have h2 := ih (updateKey Gr s k) h1.1
      refine ⟨h2.1, ?_, ?_⟩
      · rw [sweep, List.foldl_cons, ← sweep]; rw [h2.2.1, h1.2.1]
      · rw [sweep, List.foldl_cons, ← sweep]; rw [h2.2.2, h1.2.2]

theorem loopN_frozen_pres {κ : Type} [DecidableEq κ] (Gr : κ → Node κ)
    (order : List κ) (root : κ) (tol : ℚ) (n : ℕ) (s : SState κ) (j : κ)
    (hj : s.frozen j = true) :
    (loopN Gr order root tol n s).frozen j = true ∧
    (loopN Gr order root tol n s).dmin j = s.dmin j ∧
    (loopN Gr order root tol n s).dmax j = s.dmax j := by
  induction n generalizing s with
  | zero => exact ⟨hj, rfl, rfl⟩
  | succ n ih =>
      by_cases hc : tol < s.dmax root - s.dmin root
      · have h1 := sweep_frozen_pres Gr order s j hj
        have h2 := ih (sweep Gr order s) h1.1
        simp only [loopN, hc, if_true]
        exact ⟨h2.1, h2.2.1.trans h1.2.1, h2.2.2.trans h1.2.2⟩
      · rw [loopN_eq_of_cond_false Gr order root tol s hc (n + 1)]
        exact ⟨hj, rfl, rfl⟩

theorem loopN_add {κ : Type} [DecidableEq κ] (Gr : κ → Node κ)
    (order : List κ) (root : κ) (tol : ℚ) (m n : ℕ) (s : SState κ) :
    loopN Gr order root tol (m + n) s =
      loopN Gr order root tol n (loopN Gr order root tol m s) := by
  induction m generalizing s with
  | zero => rw [Nat.zero_add]; rfl
  | succ m ih =>
      by_cases hc : tol < s.dmax root - s.dmin root
      · have hstep : m + 1 + n = (m + n) + 1 := by omega
        rw [hstep]
        simp only [loopN, hc, if_true]
        exact ih (sweep Gr order s)
      · have e1 : loopN Gr order root tol (m + 1 + n) s = s :=
          loopN_eq_of_cond_false Gr order root tol s hc _
        have e2 : loopN Gr order root tol (m + 1) s = s :=
          loopN_eq_of_cond_false Gr order root tol s hc _
        rw [e1, e2, loopN_eq_of_cond_false Gr order root tol s hc n]

/-- C3.  In `Battle.evaluate` on the real graph, for any sweep order and
tolerance: once a key is frozen it stays frozen and its lower and upper
bounds never change at any later step; the win and loss keys are frozen
from construction (`__init__`), and their bounds are `(1,1)` and `(0,0)`
respectively at every step of the run. -/
theorem claim_C3 :
    (initSState winKey lossKey).frozen winKey = true ∧
    (initSState winKey lossKey).frozen lossKey = true ∧
    (∀ (order : List Key) (tol : ℚ) (n m : ℕ) (k : Key), n ≤ m →
      (loopIterB order tol n).frozen k = true →
      (loopIterB order tol m).frozen k = true ∧
      (loopIterB order tol m).dmin k = (loopIterB order tol n).dmin k ∧
      (loopIterB order tol m).dmax k = (loopIterB order tol n).dmax k) ∧
    (∀ (order : List Key) (tol : ℚ) (n : ℕ),
      (loopIterB order tol n).dmin lossKey = 0 ∧
      (loopIterB order tol n).dmax lossKey = 0 ∧
      (loopIterB order tol n).dmin winKey = 1 ∧
      (loopIterB order tol n).dmax winKey = 1) := by
  have hwin : (initSState winKey lossKey).frozen winKey = true := by decide
  have hloss : (initSState winKey lossKey).frozen lossKey = true := by decide
  have main : ∀ (order : List Key) (tol : ℚ) (n m : ℕ) (k : Key), n ≤ m →
      (loopIterB order tol n).frozen k = true →
      (loopIterB order tol m).frozen k = true ∧
      (loopIterB order tol m).dmin k = (loopIterB order tol n).dmin k ∧
      (loopIterB order tol m).dmax k = (loopIterB order tol n).dmax k := by
    intro order tol n m k hnm hk
    have key : loopIterB order tol m =
        loopN battleG order initKeyB tol (m - n) (loopIterB order tol n) := by
      have hm : n + (m - n) = m := by omega
      conv_lhs => rw [← hm]
      exact loopN_add battleG order initKeyB tol n (m - n) (initSState winKey lossKey)
    rw [key]
    exact loopN_frozen_pres battleG order initKeyB tol (m - n) _ k hk
  refine ⟨hwin, hloss, main, fun order tol n => ?_⟩
  have h1 := main order tol 0 n winKey (Nat.zero_le n) hwin
  have h2 := main order tol 0 n lossKey (Nat.zero_le n) hloss
  have e1 : loopIterB order tol 0 = initSState winKey lossKey := rfl
  rw [e1] at h1 h2
  refine ⟨h2.2.1.trans ?_, h2.2.2.trans ?_, h1.2.1.trans ?_, h1.2.2.trans ?_⟩ <;>
    decide

/-- Witness for C3: the win key is frozen initially, and one conditional
sweep with an empty order preserves its bounds. -/
theorem claim_C3_witness :
    (0 : ℕ) ≤ 1 ∧ (loopIterB [] 0 0).frozen winKey = true ∧
      ((loopIterB [] 0 1).frozen winKey = true ∧
       (loopIterB [] 0 1).dmin winKey = (loopIterB [] 0 0).dmin winKey ∧
       (loopIterB [] 0 1).dmax winKey = (loopIterB [] 0 0).dmax winKey) :=
  ⟨Nat.zero_le 1, by decide, claim_C3.2.2.1 [] 0 0 1 winKey (Nat.zero_le 1) (by decide)⟩

/-! ## C4: bound monotonicity across sweeps

The lower-bound vector only rises and the upper-bound vector only falls,
because the initial state is a prefixpoint of the per-node
recompute operator `FV` and the Gauss–Seidel updates preserve that. -/

/-- Chance nodes carry non-negative probabilities summing to at most 1
(the battle graph satisfies this: its sums are exactly 1). -/
def GrOK {κ : Type} (Gr : κ → Node κ) : Prop :=
  ∀ k outs, Gr k = .chance outs →
    (∀ jp ∈ outs, 0 ≤ jp.2) ∧ sumVals outs ≤ 1

theorem foldl_max_mono {κ : Type} {v w : κ → ℚ} (h : ∀ j, v j ≤ w j)
    (l : List κ) : ∀ a b : ℚ, a ≤ b →
    l.foldl (fun x j => max x (v j)) a ≤ l.foldl (fun x j => max x (w j)) b := by
  induction l with
  | nil => exact fun a b hab => hab
  | cons j js ih =>
      intro a b hab
      exact ih _ _ (max_le_max hab (h j))

theorem le_foldl_max {κ : Type} (v : κ → ℚ) (l : List κ) :
    ∀ a : ℚ, a ≤ l.foldl (fun x j => max x (v j)) a := by
  induction l with
  | nil => exact fun a => le_refl a
  | cons j js ih => exact fun a => le_trans (le_max_left a (v j)) (ih _)

theorem foldl_max_le {κ : Type} (v : κ → ℚ) (l : List κ) :
    ∀ a c : ℚ, a ≤ c → (∀ j ∈ l, v j ≤ c) →
      l.foldl (fun x j => max x (v j)) a ≤ c := by
  induction l with
  | nil => exact fun a c hac _ => hac
  | cons j js ih =>
      intro a c hac hl
      exact ih _ _ (max_le hac (hl j (List.mem_cons_self j js)))
        fun j' hj' => hl j' (List.mem_cons_of_mem j hj')

theorem foldl_sum_mono {κ : Type} {v w : κ → ℚ} (h : ∀ j, v j ≤ w j)
    (l : List (κ × ℚ)) (hp : ∀ jp ∈ l, 0 ≤ jp.2) : ∀ a b : ℚ, a ≤ b →
    l.foldl (fun x jp => x + v jp.1 * jp.2) a ≤
      l.foldl (fun x jp => x + w jp.1 * jp.2) b := by
  induction l with
  | nil => exact fun a b hab => hab
  | cons jp js ih =>
      intro a b hab
      refine ih (fun q hq => hp q (List.mem_cons_of_mem jp hq)) _ _ ?_
      have hpj : 0 ≤ jp.2 := hp jp (List.mem_cons_self jp js)
      exact add_le_add hab (mul_le_mul_of_nonneg_right (h jp.1) hpj)

theorem foldl_sum_nonneg {κ : Type} (v : κ → ℚ) (l : List (κ × ℚ))
    (hp : ∀ jp ∈ l, 0 ≤ jp.2) (hv : ∀ j, 0 ≤ v j) : ∀ a : ℚ, 0 ≤ a →
    0 ≤ l.foldl (fun x jp => x + v jp.1 * jp.2) a := by
  induction l with
  | nil => exact fun a ha => ha
  | cons jp js ih =>
      intro a ha
      refine ih (fun q hq => hp q (List.mem_cons_of_mem jp hq)) _ ?_
      have hpj : 0 ≤ jp.2 := hp jp (List.mem_cons_self jp js)
      exact add_nonneg ha (mul_nonneg (hv jp.1) hpj)

theorem foldl_sum_one {κ : Type} (l : List (κ × ℚ)) : ∀ a : ℚ,
    l.foldl (fun x jp => x + 1 * jp.2) a = a + sumVals l := by
  induction l with
  | nil => intro a; simp [sumVals]
  | cons jp js ih =>
      intro a
      rw [List.foldl_cons, ih]
      simp [sumVals]
      ring

theorem FV_mono {κ : Type} (Gr : κ → Node κ) (hok : GrOK Gr) {v w : κ → ℚ}
    (h : ∀ j, v j ≤ w j) (k : κ) : FV Gr v k ≤ FV Gr w k := by
  unfold FV
  cases hG : Gr k with
  | choice s0 rest => exact foldl_max_mono h rest _ _ (h s0)
  | chance outs =>
      exact foldl_sum_mono h outs (hok k outs hG).1 0 0 (le_refl 0)
  | terminal => exact h k

theorem FV_nonneg {κ : Type} (Gr : κ → Node κ) (hok : GrOK Gr) {v : κ → ℚ}
    (hv : ∀ j, 0 ≤ v j) (k : κ) : 0 ≤ FV Gr v k := by
  unfold FV
  cases hG : Gr k with
  | choice s0 rest => exact le_trans (hv s0) (le_foldl_max v rest _)
  | chance outs =>
      exact foldl_sum_nonneg v outs (hok k outs hG).1 hv 0 (le_refl 0)
  | terminal => exact hv k

theorem FV_le_one {κ : Type} (Gr : κ → Node κ) (hok : GrOK Gr) {v : κ → ℚ}
    (hv : ∀ j, v j ≤ 1) (k : κ) : FV Gr v k ≤ 1 := by
  unfold FV
  cases hG : Gr k with
  | choice s0 rest => exact foldl_max_le v rest _ _ (hv s0) fun j _ => hv j
  | chance outs =>
      have h1 : outs.foldl (fun x jp => x + v jp.1 * jp.2) 0 ≤
          outs.foldl (fun x jp => x + 1 * jp.2) 0 :=
        foldl_sum_mono hv outs (hok k outs hG).1 0 0 (le_refl 0)
      rw [foldl_sum_one] at h1
      calc outs.foldl (fun x jp => x + v jp.1 * jp.2) 0 ≤ 0 + sumVals outs := h1
        _ ≤ 1 := by rw [zero_add]; exact (hok k outs hG).2
  | terminal => exact hv k

/-- The solver invariant: bounds in `[0,1]`, lower ≤ upper, and the
value vectors are prefixpoint (dmin) and postfixpoint (dmax) of the recompute operator. -/
def InvP {κ : Type} (Gr : κ → Node κ) (s : SState κ) : Prop :=
  (∀ k, 0 ≤ s.dmin k) ∧ (∀ k, s.dmax k ≤ 1) ∧ (∀ k, s.dmin k ≤ s.dmax k) ∧
  (∀ k, s.dmin k ≤ FV Gr s.dmin k) ∧ (∀ k, FV Gr s.dmax k ≤ s.dmax k)

theorem fupd_same {κ : Type} [DecidableEq κ] (f : κ → ℚ) (k : κ) (a b : ℚ) :
    fupd (fupd f k a) k b = fupd f k b := by
  funext j
  unfold fupd
  split_ifs <;> rfl

theorem fupd_of_self {κ : Type} [DecidableEq κ] (f : κ → ℚ) (k : κ) :
    fupd f k (f k) = f := by
  funext j
  unfold fupd
  split_ifs with h
  · subst h; rfl
  · rfl

/-- Characterization of `updateKey` on an unfrozen key whose recomputed
lower bound does not exceed its recomputed upper bound: both value maps
are pointwise updates with the recomputed `FV` values (when the freeze
guard fires, the two recomputed values are forced equal, and the
midpoint is that same value). -/
theorem updateKey_maps {κ : Type} [DecidableEq κ] (Gr : κ → Node κ)
    (s : SState κ) (k : κ) (hnf : ¬ s.frozen k = true)
    (hle : FV Gr s.dmin k ≤ FV Gr s.dmax k) :
    (updateKey Gr s k).dmin = fupd s.dmin k (FV Gr s.dmin k) ∧
    (updateKey Gr s k).dmax = fupd s.dmax k (FV Gr s.dmax k) := by
  unfold updateKey
  rw [if_neg hnf]
  cases hG : Gr k with
  | terminal =>
      have emin : FV Gr s.dmin k = s.dmin k := by unfold FV; rw [hG]
      have emax : FV Gr s.dmax k = s.dmax k := by unfold FV; rw [hG]
      rw [emin, emax] at hle
      rw [emin, emax]
      dsimp only
      split_ifs with hfr
      · have heq : s.dmin k = s.dmax k := le_antisymm hle hfr
        constructor
        · rw [heq]
          ring_nf
        · rw [heq]
          ring_nf
      · exact ⟨(fupd_of_self _ _).symm, (fupd_of_self _ _).symm⟩
  | choice s0 rest =>
      dsimp only
      split_ifs with hfr
      · simp only [fupd, if_pos] at hfr
        have heq : FV Gr s.dmin k = FV Gr s.dmax k := le_antisymm hle hfr
        have hmid1 : (fupd s.dmin k (FV Gr s.dmin k) k +
            fupd s.dmax k (FV Gr s.dmax k) k) / 2 = FV Gr s.dmin k := by
          simp only [fupd, if_pos]
          rw [heq]; ring
        have hmid2 : (fupd s.dmin k (FV Gr s.dmin k) k +
            fupd s.dmax k (FV Gr s.dmax k) k) / 2 = FV Gr s.dmax k := by
          simp only [fupd, if_pos]
          rw [heq]; ring
        constructor
        · rw [hmid1, fupd_same]
        · rw [hmid2, fupd_same, fupd_same]
      · exact ⟨rfl, rfl⟩
  | chance outs =>
      dsimp only
      split_ifs with hfr
      · simp only [fupd, if_pos] at hfr
        have heq : FV Gr s.dmin k = FV Gr s.dmax k := le_antisymm hle hfr
        have hmid1 : (fupd s.dmin k (FV Gr s.dmin k) k +
            fupd s.dmax k (FV Gr s.dmax k) k) / 2 = FV Gr s.dmin k := by
          simp only [fupd, if_pos]
          rw [heq]; ring
        have hmid2 : (fupd s.dmin k (FV Gr s.dmin k) k +
            fupd s.dmax k (FV Gr s.dmax k) k) / 2 = FV Gr s.dmax k := by
          simp only [fupd, if_pos]
          rw [heq]; ring
        constructor
        · rw [hmid1, fupd_same]
        · rw [hmid2, fupd_same, fupd_same]
      · exact ⟨rfl, rfl⟩

/-! ### Non-negativity of all probabilities in the battle graph -/

/-- All probability values of a dict / outcome list are non-negative. -/
def valsNN {α : Type} (l : List (α × ℚ)) : Prop := ∀ kv ∈ l, 0 ≤ kv.2

theorem valsNN_dictAdd {α : Type} [DecidableEq α] {d : List (α × ℚ)} {k : α}
    {v : ℚ} (hd : valsNN d) (hv : 0 ≤ v) : valsNN (dictAdd d k v) := by
  induction d with
  | nil =>
      intro kv hkv
      simp [dictAdd] at hkv
      subst hkv
      exact hv
  | cons kv' rest ih =>
      obtain ⟨k', v'⟩ := kv'
      by_cases h : k = k'
      · intro kv hkv
        simp only [dictAdd, h, if_pos] at hkv
        rcases List.mem_cons.1 hkv with h1 | h1
        · rw [h1]
          exact add_nonneg (hd (k', v') (List.mem_cons_self _ _)) hv
        · exact hd kv (List.mem_cons_of_mem _ h1)
      · intro kv hkv
        simp only [dictAdd, h, if_false] at hkv
        rcases List.mem_cons.1 hkv with h1 | h1
        · rw [h1]
          exact hd (k', v') (List.mem_cons_self _ _)
        · exact ih (fun q hq => hd q (List.mem_cons_of_mem _ hq)) kv h1

theorem valsNN_foldl_dictAdd {α β : Type} [DecidableEq α] (l : List β)
    (f : β → α) (g : β → ℚ) (d0 : List (α × ℚ)) (hd : valsNN d0)
    (hg : ∀ x ∈ l, 0 ≤ g x) :
    valsNN (l.foldl (fun d x => dictAdd d (f x) (g x)) d0) := by
  induction l generalizing d0 with
  | nil => exact hd
  | cons x xs ih =>
      exact ih _ (valsNN_dictAdd hd (hg x (List.mem_cons_self _ _)))
        fun y hy => hg y (List.mem_cons_of_mem _ hy)

theorem getCritDist_NN (L : ℕ) (p : ℚ) (hp : 0 ≤ p) (A1 A2 D1 D2 B : ℕ)
    (stab : Bool) (te : ℚ) : valsNN (getCritDist L p A1 A2 D1 D2 B stab te) := by
  unfold getCritDist
  have hmin0 : 0 ≤ min p 1 := le_min hp zero_le_one
  have hmin1 : min p 1 ≤ 1 := min_le_right p 1
  refine valsNN_foldl_dictAdd _ _ _ _ (valsNN_foldl_dictAdd _ _ _ _ ?_ ?_) ?_
  · intro kv hkv; simp at hkv
  · intro x _
    apply div_nonneg (by linarith)
    positivity
  · intro x _
    apply div_nonneg hmin0
    positivity

theorem applyActionSide1_NN (s : GameState) (a : Act) :
    valsNN (applyActionSide1 s a) := by
  unfold applyActionSide1
  by_cases h : a = .superPotion
  · simp only [h, if_pos]
    intro kv hkv
    simp at hkv
    subst hkv
    norm_num
  · simp only [h, if_false]
    refine valsNN_foldl_dictAdd _ _ _ _ (fun kv hkv => by simp at hkv) ?_
    intro xp hxp
    refine getCritDist_NN _ _ ?_ _ _ _ _ _ _ _ _ hxp
    apply div_nonneg (Nat.cast_nonneg _)
    split_ifs <;> norm_num

theorem applyAction_NN (s : GameState) (side : ℕ) (a : Act) :
    valsNN (applyAction s side a) := by
  unfold applyAction
  split_ifs
  · exact applyActionSide1_NN s a
  · intro kv hkv
    obtain ⟨kv', hkv', hval⟩ := List.mem_map.1 hkv
    rw [← hval]
    exact applyActionSide1_NN (swapGS s) a kv' hkv'

theorem applyActionPair_NN (state : GameState) (side1 : ℕ) (act1 : Act)
    (side2 : ℕ) (act2 : Act) {dist : List (Key × ℚ)} {pmult : ℚ}
    (hd : valsNN dist) (hm : 0 ≤ pmult) :
    valsNN (applyActionPair state side1 act1 side2 act2 dist pmult) := by
  unfold applyActionPair
  refine valsNN_foldl_dictAdd _ _ _ _ hd ?_
  intro nsp hnsp
  exact mul_nonneg (applyAction_NN state side1 act1 nsp hnsp) hm

theorem succBStep_NN (state : GameState) (action : Act) {d : List (Key × ℚ)}
    {ep : Act × ℚ} (hd : valsNN d) (hp : 0 ≤ ep.2) :
    valsNN (succBStep state action d ep) := by
  simp only [succBStep]
  split_ifs <;>
    first
      | exact applyActionPair_NN _ _ _ _ _ hd hp
      | exact applyActionPair_NN _ _ _ _ _
          (applyActionPair_NN _ _ _ _ _ hd (by positivity)) (by positivity)

theorem valsNN_of_perm {α : Type} {l l' : List (α × ℚ)}
    (h : List.Perm l l') (hl : valsNN l') : valsNN l :=
  fun kv hkv => hl kv (h.mem_iff.1 hkv)

theorem getSuccessorsB_NN (state : GameState) (action : Act) :
    valsNN (getSuccessorsB state action) := by
  unfold getSuccessorsB
  refine valsNN_of_perm (sortPairs_perm _) ?_
  simp only [List.foldl_cons, List.foldl_nil]
  refine succBStep_NN _ _ (succBStep_NN _ _ (fun kv hkv => by simp at hkv) ?_) ?_ <;>
    norm_num

theorem getSuccessorsC_NN (state : GameState) (side : ℕ) (action : Act) :
    valsNN (getSuccessorsC state side action) := by
  unfold getSuccessorsC
  refine valsNN_of_perm (sortPairs_perm _) ?_
  refine valsNN_foldl_dictAdd _ _ _ _ (fun kv hkv => by simp at hkv) ?_
  intro nsp hnsp
  exact applyAction_NN state side action nsp hnsp

/-- The battle graph satisfies the chance-node hypotheses: probabilities
are non-negative and sum to (exactly) 1. -/
theorem battleG_ok : GrOK battleG := by
  intro k outs hG
  cases k with
  | propose s => simp [battleG] at hG
  | moveSel s a =>
      simp only [battleG, Node.chance.injEq] at hG
      rw [← hG]
      exact ⟨getSuccessorsB_NN s a, le_of_eq (getSuccessorsB_sum s a)⟩
  | outcome s side a =>
      simp only [battleG, Node.chance.injEq] at hG
      rw [← hG]
      exact ⟨getSuccessorsC_NN s side a, le_of_eq (getSuccessorsC_sum s side a)⟩
  | term w => simp [battleG] at hG

/-- Gauss–Seidel step: one `updateKey` preserves the invariant, never
decreases any lower bound and never increases any upper bound. -/
theorem updateKey_mono {κ : Type} [DecidableEq κ] (Gr : κ → Node κ)
    (hok : GrOK Gr) (s : SState κ) (hinv : InvP Gr s) (k : κ) :
    InvP Gr (updateKey Gr s k) ∧
    (∀ j, s.dmin j ≤ (updateKey Gr s k).dmin j) ∧
    (∀ j, (updateKey Gr s k).dmax j ≤ s.dmax j) := by
  obtain ⟨h0, h1, h01, hpre, hpost⟩ := hinv
  by_cases hf : s.frozen k = true
  · rw [show updateKey Gr s k = s from by unfold updateKey; rw [if_pos hf]]
    exact ⟨⟨h0, h1, h01, hpre, hpost⟩, fun j => le_refl _, fun j => le_refl _⟩
  · have hle : FV Gr s.dmin k ≤ FV Gr s.dmax k := FV_mono Gr hok h01 k
    obtain ⟨emin, emax⟩ := updateKey_maps Gr s k hf hle
    have hminle : ∀ j, s.dmin j ≤ (updateKey Gr s k).dmin j := by
      intro j
      rw [emin]
      unfold fupd
      split_ifs with hj
      · rw [hj]; exact hpre k
      · exact le_refl _
    have hmaxge : ∀ j, (updateKey Gr s k).dmax j ≤ s.dmax j := by
      intro j
      rw [emax]
      unfold fupd
      split_ifs with hj
      · rw [hj]; exact hpost k
      · exact le_refl _
    have hminF : ∀ j, FV Gr s.dmin j ≤ FV Gr (updateKey Gr s k).dmin j :=
      fun j => FV_mono Gr hok hminle j
    have hmaxF : ∀ j, FV Gr (updateKey Gr s k).dmax j ≤ FV Gr s.dmax j :=
      fun j => FV_mono Gr hok hmaxge j
    refine ⟨⟨?_, ?_, ?_, ?_, ?_⟩, hminle, hmaxge⟩
    · intro j
      rw [emin]; unfold fupd; split_ifs
      · exact FV_nonneg Gr hok h0 k
      · exact h0 j
    · intro j
      rw [emax]; unfold fupd; split_ifs
      · exact FV_le_one Gr hok h1 k
      · exact h1 j
    · intro j
      rw [emin, emax]; unfold fupd; split_ifs
      · exact hle
      · exact h01 j
    · intro j
      refine le_trans ?_ (hminF j)
      rw [emin]; unfold fupd; split_ifs with hj
      · rw [hj]
      · exact hpre j
    · intro j
      refine le_trans (hmaxF j) ?_
      rw [emax]; unfold fupd; split_ifs with hj
      · rw [hj]
      · exact hpost j

theorem sweep_mono {κ : Type} [DecidableEq κ] (Gr : κ → Node κ)
    (hok : GrOK Gr) (order : List κ) (s : SState κ) (hinv : InvP Gr s) :
    InvP Gr (sweep Gr order s) ∧
    (∀ j, s.dmin j ≤ (sweep Gr order s).dmin j) ∧
    (∀ j, (sweep Gr order s).dmax j ≤ s.dmax j) := by
  induction order generalizing s with
  | nil => exact ⟨hinv, fun j => le_refl _, fun j => le_refl _⟩
  | cons k ks ih =>
      obtain ⟨hI, hmin, hmax⟩ := updateKey_mono Gr hok s hinv k
      obtain ⟨hI', hmin', hmax'⟩ := ih (updateKey Gr s k) hI
      have e : sweep Gr (k :: ks) s = sweep Gr ks (updateKey Gr s k) := by
        unfold sweep
        rw [List.foldl_cons]
      rw [e]
      exact ⟨hI', fun j => le_trans (hmin j) (hmin' j),
        fun j => le_trans (hmax' j) (hmax j)⟩

theorem loopN_inv {κ : Type} [DecidableEq κ] (Gr : κ → Node κ)
    (hok : GrOK Gr) (order : List κ) (root : κ) (tol : ℚ) (n : ℕ)
    (s : SState κ) (hinv : InvP Gr s) :
    InvP Gr (loopN Gr order root tol n s) := by
  induction n generalizing s with
  | zero => exact hinv
  | succ n ih =>
      by_cases hc : tol < s.dmax root - s.dmin root
      · simp only [loopN, hc, if_true]
        exact ih _ (sweep_mono Gr hok order s hinv).1
      · simp only [loopN, hc, if_false]
        exact hinv

/-- The `__init__` state satisfies the invariant on the battle graph. -/
theorem InvP_initB : InvP battleG (initSState winKey lossKey) := by
  have hok := battleG_ok
  have hwl : winKey ≠ lossKey := by decide
  have h0 : ∀ k : Key, 0 ≤ (initSState winKey lossKey).dmin k := by
    intro k
    simp only [initSState]
    split_ifs <;> norm_num
  have h1 : ∀ k : Key, (initSState winKey lossKey).dmax k ≤ 1 := by
    intro k
    simp only [initSState]
    split_ifs <;> norm_num
  have hminw : (initSState winKey lossKey).dmin winKey = 1 := by
    simp [initSState]
  have hmaxl : (initSState winKey lossKey).dmax lossKey = 0 := by
    simp [initSState]
  refine ⟨h0, h1, ?_, ?_, ?_⟩
  · intro k
    simp only [initSState]
    split_ifs with hw hl
    · exact absurd (hw ▸ hl : winKey = lossKey) hwl
    · norm_num
    · norm_num
    · norm_num
  · intro k
    by_cases hw : k = winKey
    · subst hw
      have : FV battleG (initSState winKey lossKey).dmin winKey =
          (initSState winKey lossKey).dmin winKey := rfl
      rw [this]
    · have : (initSState winKey lossKey).dmin k = 0 := by
        simp [initSState, hw]
      rw [this]
      exact FV_nonneg battleG hok h0 k
  · intro k
    by_cases hl : k = lossKey
    · subst hl
      have : FV battleG (initSState winKey lossKey).dmax lossKey =
          (initSState winKey lossKey).dmax lossKey := rfl
      rw [this]
    · have : (initSState winKey lossKey).dmax k = 1 := by
        simp [initSState, hl]
      rw [this]
      exact FV_le_one battleG hok h1 k

/-- C4.  In `Battle.evaluate` on the real graph, for any sweep order,
tolerance and key, the lower bound never decreases and the upper bound
never increases from one conditional sweep to the next (this holds
through the freeze step as well: the midpoint collapse only fires when
the two recomputed bounds are already equal, so it moves nothing). -/
theorem claim_C4 : ∀ (order : List Key) (tol : ℚ) (n : ℕ) (k : Key),
    (loopIterB order tol n).dmin k ≤ (loopIterB order tol (n + 1)).dmin k ∧
    (loopIterB order tol (n + 1)).dmax k ≤ (loopIterB order tol n).dmax k := by
  intro order tol n k
  have hinv : InvP battleG (loopIterB order tol n) :=
    loopN_inv battleG battleG_ok order initKeyB tol n _ InvP_initB
  have heq : loopIterB order tol (n + 1) =
      loopN battleG order initKeyB tol 1 (loopIterB order tol n) :=
    loopN_add battleG order initKeyB tol n 1 (initSState winKey lossKey)
  rw [heq]
  by_cases hc : tol < (loopIterB order tol n).dmax initKeyB -
      (loopIterB order tol n).dmin initKeyB
  · have e1 : loopN battleG order initKeyB tol 1 (loopIterB order tol n) =
        sweep battleG order (loopIterB order tol n) := by
      simp [loopN, hc]
    rw [e1]
    obtain ⟨_, hmin, hmax⟩ :=
      sweep_mono battleG battleG_ok order (loopIterB order tol n) hinv
    exact ⟨hmin k, hmax k⟩
  · rw [loopN_eq_of_cond_false battleG order initKeyB tol _ hc 1]
    exact ⟨le_refl _, le_refl _⟩

/-! ## C8: `topoSort` visits exactly the reachable keys, once each -/

/-- Reachability from a root set along the successor-key function. -/
inductive Reach {κ : Type} (next : κ → List κ) (roots : List κ) : κ → Prop
  | root {k : κ} : k ∈ roots → Reach next roots k
  | step {k k' : κ} : Reach next roots k → k' ∈ next k → Reach next roots k'

/-- Loop invariant of the `topoSort` stack machine. -/
def TInv {κ : Type} [DecidableEq κ] (next : κ → List κ) (roots : List κ)
    (stack : List (κ × Bool)) (visited results : List κ) : Prop :=
  (∀ k, (k, true) ∈ stack → k ∈ visited) ∧
  (∀ k, results.count k + stack.count (k, true) =
    if k ∈ visited then 1 else 0) ∧
  (∀ k ∈ visited, Reach next roots k) ∧
  (∀ k ∈ visited, ∀ p ∈ next k, p ∈ visited ∨ (p, false) ∈ stack) ∧
  (∀ r ∈ roots, r ∈ visited ∨ (r, false) ∈ stack) ∧
  (∀ k, (k, false) ∈ stack → Reach next roots k)

theorem TInv_init {κ : Type} [DecidableEq κ] (next : κ → List κ)
    (roots : List κ) :
    TInv next roots ((roots.map fun r => (r, false)).reverse) [] [] := by
  refine ⟨?_, ?_, ?_, ?_, ?_, ?_⟩
  · intro k hk
    rw [List.mem_reverse, List.mem_map] at hk
    obtain ⟨r, _, hr⟩ := hk
    exact absurd (congrArg Prod.snd hr) (by simp)
  · intro k
    have : ((roots.map fun r => (r, false)).reverse).count (k, true) = 0 := by
      rw [List.count_eq_zero]
      intro hk
      rw [List.mem_reverse, List.mem_map] at hk
      obtain ⟨r, _, hr⟩ := hk
      exact absurd (congrArg Prod.snd hr) (by simp)
    simp [this]
  · intro k hk; simp at hk
  · intro k hk; simp at hk
  · intro r hr
    right
    rw [List.mem_reverse, List.mem_map]
    exact ⟨r, hr, rfl⟩
  · intro k hk
    rw [List.mem_reverse, List.mem_map] at hk
    obtain ⟨r, hr, he⟩ := hk
    have : r = k := congrArg Prod.fst he
    exact this ▸ Reach.root hr

theorem TInv_pop_true {κ : Type} [DecidableEq κ] {next : κ → List κ}
    {roots : List κ} {cur : κ} {rest : List (κ × Bool)}
    {visited results : List κ}
    (h : TInv next roots ((cur, true) :: rest) visited results) :
    TInv next roots rest visited (results ++ [cur]) := by
  obtain ⟨i1, i2, i3, i4, i5, i6⟩ := h
  refine ⟨?_, ?_, i3, ?_, ?_, ?_⟩
  · intro k hk
    exact i1 k (List.mem_cons_of_mem _ hk)
  · intro k
    have h2 := i2 k
    rw [List.count_append]
    by_cases hkc : cur = k
    · subst hkc
      rw [List.count_cons_self] at h2
      have hv : cur ∈ visited := i1 cur (List.mem_cons_self _ _)
      rw [List.count_singleton_self]
      simp only [hv, if_true] at h2 ⊢
      omega
    · have hne : (k, true) ≠ (cur, true) := by
        intro h
        exact hkc (congrArg Prod.fst h).symm
      rw [List.count_cons_of_ne hne] at h2
      have h0 : [cur].count k = 0 := by
        rw [List.count_eq_zero]
        intro h
        exact hkc (List.mem_singleton.1 h).symm
      rw [h0]
      omega
  · intro k hk p hp
    rcases i4 k hk p hp with h | h
    · exact Or.inl h
    · rcases List.mem_cons.1 h with h' | h'
      · exact absurd (congrArg Prod.snd h') (by simp)
      · exact Or.inr h'
  · intro r hr
    rcases i5 r hr with h | h
    · exact Or.inl h
    · rcases List.mem_cons.1 h with h' | h'
      · exact absurd (congrArg Prod.snd h') (by simp)
      · exact Or.inr h'
  · intro k hk
    exact i6 k (List.mem_cons_of_mem _ hk)

theorem TInv_pop_false_vis {κ : Type} [DecidableEq κ] {next : κ → List κ}
    {roots : List κ} {cur : κ} {rest : List (κ × Bool)}
    {visited results : List κ} (hv : cur ∈ visited)
    (h : TInv next roots ((cur, false) :: rest) visited results) :
    TInv next roots rest visited results := by
  obtain ⟨i1, i2, i3, i4, i5, i6⟩ := h
  refine ⟨?_, ?_, i3, ?_, ?_, ?_⟩
  · intro k hk
    exact i1 k (List.mem_cons_of_mem _ hk)
  · intro k
    have h2 := i2 k
    have hne : (k, true) ≠ (cur, false) := by simp
    rw [List.count_cons_of_ne hne] at h2
    exact h2
  · intro k hk p hp
    rcases i4 k hk p hp with h | h
    · exact Or.inl h
    · rcases List.mem_cons.1 h with h' | h'
      · have : p = cur := congrArg Prod.fst h'
        exact Or.inl (this ▸ hv)
      · exact Or.inr h'
  · intro r hr
    rcases i5 r hr with h | h
    · exact Or.inl h
    · rcases List.mem_cons.1 h with h' | h'
      · have : r = cur := congrArg Prod.fst h'
        exact Or.inl (this ▸ hv)
      · exact Or.inr h'
  · intro k hk
    exact i6 k (List.mem_cons_of_mem _ hk)

theorem TInv_pop_false_new {κ : Type} [DecidableEq κ] {next : κ → List κ}
    {roots : List κ} {cur : κ} {rest : List (κ × Bool)}
    {visited results : List κ} (hv : cur ∉ visited)
    (h : TInv next roots ((cur, false) :: rest) visited results) :
    TInv next roots
      (((next cur).map fun p => (p, false)).reverse ++ (cur, true) :: rest)
      (cur :: visited) results := by
  obtain ⟨i1, i2, i3, i4, i5, i6⟩ := h
  have hcur : Reach next roots cur := i6 cur (List.mem_cons_self _ _)
  have hmapF : ∀ k : κ, (k, true) ∉ ((next cur).map fun p => (p, false)).reverse := by
    intro k hk
    rw [List.mem_reverse, List.mem_map] at hk
    obtain ⟨p, _, hp⟩ := hk
    exact absurd (congrArg Prod.snd hp) (by simp)
  refine ⟨?_, ?_, ?_, ?_, ?_, ?_⟩
  · intro k hk
    rcases List.mem_append.1 hk with h' | h'
    · exact absurd h' (hmapF k)
    · rcases List.mem_cons.1 h' with h'' | h''
      · exact List.mem_cons.2 (Or.inl (congrArg Prod.fst h''))
      · exact List.mem_cons_of_mem _ (i1 k (List.mem_cons_of_mem _ h''))
  · intro k
    have h2 := i2 k
    have hne0 : (k, true) ≠ (cur, false) := by simp
    rw [List.count_cons_of_ne hne0] at h2
    rw [List.count_append]
    have hz : (((next cur).map fun p => (p, false)).reverse).count (k, true) = 0 := by
      rw [List.count_eq_zero]; exact hmapF k
    rw [hz]
    by_cases hkc : cur = k
    · subst hkc
      rw [List.count_cons_self]
      have hnv : ¬ cur ∈ visited := hv
      have hvis : cur ∈ cur :: visited := List.mem_cons_self _ _
      rw [if_pos hvis]
      simp only [hnv, if_false] at h2
      omega
    · have hne : (k, true) ≠ (cur, true) := by
        intro h
        exact hkc (congrArg Prod.fst h).symm
      rw [List.count_cons_of_ne hne]
      have hmem : (k ∈ cur :: visited) ↔ (k ∈ visited) := by
        rw [List.mem_cons]
        constructor
        · rintro (h | h)
          · exact absurd h.symm hkc
          · exact h
        · exact Or.inr
      simp only [hmem]
      omega
  · intro k hk
    rcases List.mem_cons.1 hk with h' | h'
    · exact h' ▸ hcur
    · exact i3 k h'
  · intro k hk p hp
    rcases List.mem_cons.1 hk with h' | h'
    · subst h'
      right
      rw [List.mem_append, List.mem_reverse, List.mem_map]
      exact Or.inl ⟨p, hp, rfl⟩
    · rcases i4 k h' p hp with h'' | h''
      · exact Or.inl (List.mem_cons_of_mem _ h'')
      · rcases List.mem_cons.1 h'' with h3 | h3
        · have : p = cur := congrArg Prod.fst h3
          exact Or.inl (List.mem_cons.2 (Or.inl this))
        · exact Or.inr (List.mem_append.2 (Or.inr (List.mem_cons_of_mem _ h3)))
  · intro r hr
    rcases i5 r hr with h' | h'
    · exact Or.inl (List.mem_cons_of_mem _ h')
    · rcases List.mem_cons.1 h' with h'' | h''
      · have : r = cur := congrArg Prod.fst h''
        exact Or.inl (List.mem_cons.2 (Or.inl this))
      · exact Or.inr (List.mem_append.2 (Or.inr (List.mem_cons_of_mem _ h'')))
  · intro k hk
    rcases List.mem_append.1 hk with h' | h'
    · rw [List.mem_reverse, List.mem_map] at h'
      obtain ⟨p, hp, he⟩ := h'
      have : p = k := congrArg Prod.fst he
      exact this ▸ Reach.step hcur hp
    · rcases List.mem_cons.1 h' with h'' | h''
      · exact absurd (congrArg Prod.snd h'') (by simp)
      · exact i6 k (List.mem_cons_of_mem _ h'')

theorem TInv_final {κ : Type} [DecidableEq κ] {next : κ → List κ}
    {roots : List κ} {visited results : List κ}
    (h : TInv next roots [] visited results) :
    ∀ k, (k ∈ results ↔ Reach next roots k) ∧ results.count k ≤ 1 := by
  obtain ⟨_, i2, i3, i4, i5, _⟩ := h
  have hcount : ∀ k, results.count k = if k ∈ visited then 1 else 0 := by
    intro k
    have := i2 k
    simpa using this
  have hvr : ∀ k, Reach next roots k → k ∈ visited := by
    intro k hk
    induction hk with
    | root hr =>
        rcases i5 _ hr with h' | h'
        · exact h'
        · simp at h'
    | step _ hp ih =>
        rcases i4 _ ih _ hp with h' | h'
        · exact h'
        · simp at h'
  intro k
  constructor
  · constructor
    · intro hk
      have := hcount k
      by_cases hv : k ∈ visited
      · exact i3 k hv
      · simp only [hv, if_false] at this
        rw [List.count_eq_zero] at this
        exact absurd hk this
    · intro hk
      have hv := hvr k hk
      have := hcount k
      simp only [hv, if_true] at this
      have : 0 < results.count k := by omega
      exact List.count_pos_iff.1 this
  · rw [hcount k]
    split_ifs <;> omega

/-- `topoSort` spec: whenever the fueled traversal completes, its output
holds exactly the reachable keys, once each. -/
theorem topoSortF_spec {κ : Type} [DecidableEq κ] (next : κ → List κ)
    (fuel : ℕ) (roots : List κ) (l : List κ)
    (h : topoSortF next fuel roots = some l) :
    ∀ k, (k ∈ l ↔ Reach next roots k) ∧ l.count k ≤ 1 := by
  suffices haux : ∀ (fuel : ℕ) (stack : List (κ × Bool)) (visited results : List κ),
      TInv next roots stack visited results →
      topoAux next fuel stack visited results = some l →
      ∀ k, (k ∈ l ↔ Reach next roots k) ∧ l.count k ≤ 1 by
    exact haux fuel _ [] [] (TInv_init next roots) h
  intro fuel
  induction fuel with
  | zero =>
      intro stack visited results hinv hl
      cases stack with
      | nil =>
          simp only [topoAux, Option.some.injEq] at hl
          exact hl ▸ TInv_final hinv
      | cons hd tl => simp [topoAux] at hl
  | succ fuel ih =>
      intro stack visited results hinv hl
      cases stack with
      | nil =>
          simp only [topoAux, Option.some.injEq] at hl
          exact hl ▸ TInv_final hinv
      | cons hd tl =>
          obtain ⟨cur, st⟩ := hd
          cases st with
          | true =>
              simp only [topoAux, if_pos] at hl
              exact ih tl visited (results ++ [cur]) (TInv_pop_true hinv) hl
          | false =>
              by_cases hv : cur ∈ visited
              · simp only [topoAux, Bool.false_eq_true, if_false, hv,
                  if_pos] at hl
                exact ih tl visited results (TInv_pop_false_vis hv hinv) hl
              · simp only [topoAux, Bool.false_eq_true, if_false, hv] at hl
                exact ih _ _ _ (TInv_pop_false_new hv hinv) hl

/-- C8.  Whenever the fueled `topoSort` completes, its output contains
every key reachable from the roots exactly once, and no unreachable key,
for every successor function and root list (cyclic graphs and shared
predecessors included). -/
theorem claim_C8 {κ : Type} [DecidableEq κ] (next : κ → List κ)
    (fuel : ℕ) (roots : List κ) (l : List κ)
    (h : topoSortF next fuel roots = some l) :
    ∀ k, (k ∈ l ↔ Reach next roots k) ∧ l.count k ≤ 1 :=
  topoSortF_spec next fuel roots l h

/-- A small concrete graph (with a cycle 0 → 1 → 0 and a shared
successor) for the C8 witness. -/
def tinyNext : ℕ → List ℕ
  | 0 => [1, 2]
  | 1 => [0]
  | _ => []

/-- Witness for C8 on the small cyclic graph. -/
theorem claim_C8_witness :
    topoSortF tinyNext 10 [0] = some [2, 1, 0] ∧
      ((0 ∈ [2, 1, 0] ↔ Reach tinyNext [0] 0) ∧ List.count 0 [2, 1, 0] ≤ 1) :=
  ⟨by decide, claim_C8 tinyNext 10 [0] [2, 1, 0] (by decide) 0⟩

/-! ## C9: the benchmark driver `bench_mdp` -/

/-- `expected = 0.89873589887` (the decimal literal, exactly). -/
def expectedRef : ℚ := 89873589887 / 100000000000

/-- The payload of the result-mismatch failure: the values interpolated
into the exception message (`got`, `expected`, `result - expected`). -/
structure MismatchData where
  got : ℚ
  expected : ℚ
  diff : ℚ
deriving DecidableEq

/-- The errors `bench_mdp` can raise: the result-mismatch `Exception`,
and the `TypeError` that `abs(None - expected)` raises when `loops = 0`
leaves `result = None`. -/
inductive BenchErr
  | mismatch (d : MismatchData)
  | typeErr
deriving DecidableEq

/-- `bench_mdp(loops)`: run `Battle().evaluate(0.192)` `loops` times,
keep the last result, and fail if it differs from the expected literal
by more than `1e-6`.  With `loops = 0` the Python variable `result` is
still `None` at the comparison and a `TypeError` is raised. -/
def bench_mdp (loops fuelT fuelL : ℕ) : Except BenchErr ℚ :=
  let results := (List.range loops).map fun _ => evaluateModel (192/1000) fuelT fuelL
  match results.getLast? with
  | none => .error .typeErr
  | some r =>
      if 1/1000000 < |r - expectedRef| then
        .error (.mismatch ⟨r, expectedRef, r - expectedRef⟩)
      else .ok r

/-- Counterexample for C9 as stated: at `loops = 0` the driver raises a
`TypeError`, which is neither a return nor the labelled mismatch, so the
mismatch is not the only error `bench_mdp` surfaces. -/
theorem claim_C9_counterexample :
    bench_mdp 0 0 0 = Except.error BenchErr.typeErr ∧
      ¬ ((∃ q, bench_mdp 0 0 0 = Except.ok q) ∨
         (∃ d, bench_mdp 0 0 0 = Except.error (BenchErr.mismatch d))) := by
  have h : bench_mdp 0 0 0 = Except.error BenchErr.typeErr := rfl
  refine ⟨h, ?_⟩
  rintro (⟨q, hq⟩ | ⟨d, hd⟩)
  · rw [h] at hq
    exact Except.noConfusion hq
  · rw [h] at hd
    injection hd with h'
    exact BenchErr.noConfusion h'

theorem getLast?_replicate (c : ℚ) :
    ∀ n : ℕ, (List.replicate (n + 1) c).getLast? = some c := by
  intro n
  induction n with
  | zero => rfl
  | succ n ih =>
      have h1 : List.replicate (n + 1 + 1) c = c :: List.replicate (n + 1) c :=
        List.replicate_succ c (n + 1)
      have h2 : List.replicate (n + 1) c = c :: List.replicate n c :=
        List.replicate_succ c n
      rw [h1, h2, List.getLast?_cons_cons, ← h2, ih]

/-- C9 (amended to `loops ≥ 1`).  The driver raises the labelled
mismatch failure, carrying got / expected / diff, exactly when the last
evaluation differs from the expected literal by more than `1e-6`, and
otherwise returns that result. -/
theorem claim_C9 : ∀ (loops fuelT fuelL : ℕ), 1 ≤ loops →
    (1/1000000 < |evaluateModel (192/1000) fuelT fuelL - expectedRef| →
      bench_mdp loops fuelT fuelL = Except.error (BenchErr.mismatch
        ⟨evaluateModel (192/1000) fuelT fuelL, expectedRef,
         evaluateModel (192/1000) fuelT fuelL - expectedRef⟩)) ∧
    (¬ 1/1000000 < |evaluateModel (192/1000) fuelT fuelL - expectedRef| →
      bench_mdp loops fuelT fuelL =
        Except.ok (evaluateModel (192/1000) fuelT fuelL)) := by
  intro loops fuelT fuelL hl
  obtain ⟨n, rfl⟩ : ∃ n, loops = n + 1 := ⟨loops - 1, by omega⟩
  have hres : ((List.range (n + 1)).map
      fun _ => evaluateModel (192/1000) fuelT fuelL).getLast? =
      some (evaluateModel (192/1000) fuelT fuelL) := by
    rw [List.map_const', List.length_range, getLast?_replicate]
  have hbench : bench_mdp (n + 1) fuelT fuelL =
      if 1/1000000 < |evaluateModel (192/1000) fuelT fuelL - expectedRef| then
        Except.error (BenchErr.mismatch
          ⟨evaluateModel (192/1000) fuelT fuelL, expectedRef,
           evaluateModel (192/1000) fuelT fuelL - expectedRef⟩)
      else Except.ok (evaluateModel (192/1000) fuelT fuelL) := by
    simp only [bench_mdp]
    rw [hres]
  constructor <;> intro hc <;> rw [hbench]
  · rw [if_pos hc]
  · rw [if_neg hc]

unseal Rat.add Rat.mul Rat.sub Rat.inv in
/-- Witness for C9 at `loops = 1` with zero fuel (the evaluation then
returns `0.5`, which mismatches the expected literal). -/
theorem claim_C9_witness :
    1 ≤ 1 ∧ bench_mdp 1 0 0 = Except.error (BenchErr.mismatch
      ⟨evaluateModel (192/1000) 0 0, expectedRef,
       evaluateModel (192/1000) 0 0 - expectedRef⟩) :=
  ⟨le_refl 1, (claim_C9 1 0 0 (le_refl 1)).1 (by decide)⟩

/-! ## `mdp_opt3.py`: BFS compaction (`build_graph`) and the array sweep

The `id_of` dict of the source always maps a key to its position in the
append-only `states` list, so the model represents it by positional
lookup in `states` (`posOf`). -/

/-- First position of a key in a list (`id_of` lookup). -/
def posOf {κ : Type} [DecidableEq κ] : List κ → κ → Option ℕ
  | [], _ => none
  | x :: xs, k => if k = x then some 0 else (posOf xs k).map (· + 1)

/-- The compacted graph: per-id state key, node kind (0 choice, 1
chance, 4 terminal — the source stores the original tag 1 or 2 for
chance nodes but the solver treats both identically), successor-id
lists for choice nodes, and (id, probability) lists for chance nodes. -/
structure BuiltGraph (κ : Type) where
  states : List κ
  kinds : List ℕ
  succStates : List (Option (List ℕ))
  succPairs : List (Option (List (ℕ × ℚ)))

/-- `if sp2 not in id_of: id_of[sp2] = len(states); states.append(sp2);
q.append(sp2)` followed by `ids.append(id_of[sp2])`, across a successor
list of a choice node. -/
def allocIds {κ : Type} [DecidableEq κ] :
    List κ → List κ → List κ → List ℕ × List κ × List κ
  | states, q, [] => ([], states, q)
  | states, q, k :: ks =>
      match posOf states k with
      | some i =>
          let r := allocIds states q ks
          (i :: r.1, r.2)
      | none =>
          let r := allocIds (states ++ [k]) (q ++ [k]) ks
          (states.length :: r.1, r.2)

/-- The same id allocation across the `(key, probability)` outcome list
of a chance node, producing `(id, probability)` pairs. -/
def allocPairs {κ : Type} [DecidableEq κ] :
    List κ → List κ → List (κ × ℚ) → List (ℕ × ℚ) × List κ × List κ
  | states, q, [] => ([], states, q)
  | states, q, kp :: ks =>
      match posOf states kp.1 with
      | some i =>
          let r := allocPairs states q ks
          ((i, kp.2) :: r.1, r.2)
      | none =>
          let r := allocPairs (states ++ [kp.1]) (q ++ [kp.1]) ks
          ((states.length, kp.2) :: r.1, r.2)

/-- The `while q:` loop of `build_graph`: pop the queue head, classify
its node shape, allocate ids for its successors and append one row to
each array.  `none` = fuel exhausted before the queue emptied. -/
def buildAux {κ : Type} [DecidableEq κ] (Gr : κ → Node κ) :
    ℕ → List κ → List κ → List ℕ → List (Option (List ℕ)) →
      List (Option (List (ℕ × ℚ))) → Option (BuiltGraph κ)
  | _, [], states, kinds, ss, sp => some ⟨states, kinds, ss, sp⟩
  | 0, _ :: _, _, _, _, _ => none
  | fuel + 1, k :: q, states, kinds, ss, sp =>
      match Gr k with
      | .choice s0 rest =>
          let r := allocIds states q (s0 :: rest)
          buildAux Gr fuel r.2.2 r.2.1 (kinds ++ [0]) (ss ++ [some r.1])
            (sp ++ [none])
      | .chance outs =>
          let r := allocPairs states q outs
          buildAux Gr fuel r.2.2 r.2.1 (kinds ++ [1]) (ss ++ [none])
            (sp ++ [some r.1])
      | .terminal =>
          buildAux Gr fuel q states (kinds ++ [4]) (ss ++ [some []])
            (sp ++ [some []])

/-- `build_graph(initial_statep)`: `q = deque([initial])`,
`id_of = {initial: 0}`, `states = [initial]`. -/
def buildGraph {κ : Type} [DecidableEq κ] (Gr : κ → Node κ) (fuel : ℕ)
    (root : κ) : Option (BuiltGraph κ) :=
  buildAux Gr fuel [root] [root] [] [] []

/-- The `states` list of the breadth-first traversal after a bounded
number of pops (used to pin down ids assigned early: the list is
append-only, so any completed run extends it). -/
def buildStates {κ : Type} [DecidableEq κ] (Gr : κ → Node κ) :
    ℕ → List κ → List κ → List κ
  | _, [], states => states
  | 0, _ :: _, states => states
  | fuel + 1, k :: q, states =>
      match Gr k with
      | .choice s0 rest =>
          let r := allocIds states q (s0 :: rest)
          buildStates Gr fuel r.2.2 r.2.1
      | .chance outs =>
          let r := allocPairs states q outs
          buildStates Gr fuel r.2.2 r.2.1
      | .terminal => buildStates Gr fuel q states

/-- The node shape stored at id `i` of the compacted graph,
reconstructed from the `kinds` / `succ_states` / `succ_pairs` rows
(the dispatch `if k == 0 … elif k == 1 or k == 2 … else` of the
`mdp_opt3.py` sweep). -/
def nodeAtArr {κ : Type} (g : BuiltGraph κ) (i : ℕ) : Node ℕ :=
  if g.kinds.getD i 4 = 0 then
    match (g.succStates.getD i none).getD [] with
    | [] => .terminal
    | h :: t => .choice h t
  else if g.kinds.getD i 4 = 4 then .terminal
  else .chance ((g.succPairs.getD i none).getD [])

/-- The inner sweep body of `mdp_opt3.py`, identical to `updateKey`
except that the freeze midpoint is written `0.5 * (lo + hi)` instead of
`(lo + hi) / 2.0`. -/
def updateKeyC {κ : Type} [DecidableEq κ] (Gr : κ → Node κ) (s : SState κ)
    (k : κ) : SState κ :=
  if s.frozen k then s
  else
    let s1 : SState κ :=
      match Gr k with
      | .terminal => s
      | _ => ⟨fupd s.dmin k (FV Gr s.dmin k), fupd s.dmax k (FV Gr s.dmax k),
              s.frozen⟩
    if s1.dmax k ≤ s1.dmin k then
      let mid := 1/2 * (s1.dmin k + s1.dmax k)
      ⟨fupd s1.dmin k mid, fupd s1.dmax k mid,
       fun j => if j = k then true else s1.frozen j⟩
    else s1

/-- One `mdp_opt3.py` sweep over the id order. -/
def sweepC {κ : Type} [DecidableEq κ] (Gr : κ → Node κ) (order : List κ)
    (s : SState κ) : SState κ :=
  order.foldl (updateKeyC Gr) s

/-- The fueled `mdp_opt3.py` while loop. -/
def loopC {κ : Type} [DecidableEq κ] (Gr : κ → Node κ) (order : List κ)
    (root : κ) (tol : ℚ) : ℕ → SState κ → SState κ
  | 0, s => s
  | fuel + 1, s =>
      if tol < s.dmax root - s.dmin root then
        loopC Gr order root tol fuel (sweepC Gr order s)
      else s

/-- The array initialisation of `mdp_opt3.py`: `dmin_arr = [0.0] * n`,
`dmax_arr = [1.0] * n`, `frozen_a = [False] * n`, then the conditional
win/loss seeds (`if self.loss in id_of: …`, `if self.win in id_of: …`). -/
def initArr {κ : Type} [DecidableEq κ] (g : BuiltGraph κ) (wk lk : κ) :
    SState ℕ :=
  let base : SState ℕ := ⟨fun _ => 0, fun _ => 1, fun _ => false⟩
  let s1 : SState ℕ :=
    match posOf g.states lk with
    | some il => ⟨base.dmin, fupd base.dmax il 0,
        fun j => if j = il then true else base.frozen j⟩
    | none => base
  match posOf g.states wk with
  | some iw => ⟨fupd s1.dmin iw 1, s1.dmax,
      fun j => if j = iw then true else s1.frozen j⟩
  | none => s1

/-- `Battle.evaluate` of `mdp_opt3.py`, generic in the successor graph:
build the compacted graph, seed the arrays, translate the `topoSort`
order to ids, sweep, and return `0.5 * (dmax + dmin)` at the root id.
The `none` fallback is unreachable in the source, whose `while q:` loop
always runs to completion. -/
def evaluateArr {κ : Type} [DecidableEq κ] (Gr : κ → Node κ)
    (root wk lk : κ) (tol : ℚ) (fuelT fuelB fuelL : ℕ) : ℚ :=
  match buildGraph Gr fuelB root with
  | none => 0
  | some g =>
      let iInit := (posOf g.states root).getD 0
      let orderIds := ((topoSortF (succOf Gr) fuelT [root]).getD []).map
        fun k => (posOf g.states k).getD 0
      let s := loopC (nodeAtArr g) orderIds iInit tol fuelL (initArr g wk lk)
      1/2 * (s.dmax iInit + s.dmin iInit)

/-! ## C7: the outcome-list order -/

theorem vecLe_total : ∀ u v : List ℕ, vecLe u v = true ∨ vecLe v u = true := by
  intro u
  induction u with
  | nil => intro v; left; rfl
  | cons a as ih =>
      intro v
      cases v with
      | nil => right; rfl
      | cons b bs =>
          by_cases hab : a < b
          · left; simp [vecLe, hab]
          · by_cases hba : b < a
            · right; simp [vecLe, hba, hab]
            · have hEq : a = b := by omega
              subst hEq
              simp only [vecLe, lt_irrefl, if_false]
              exact ih bs

theorem vecLe_trans : ∀ u v w : List ℕ, vecLe u v = true → vecLe v w = true →
    vecLe u w = true := by
  intro u
  induction u with
  | nil => intro v w _ _; rfl
  | cons a as ih =>
      intro v w h1 h2
      cases v with
      | nil => exact absurd h1 (by simp [vecLe])
      | cons b bs =>
          cases w with
          | nil => exact absurd h2 (by simp [vecLe])
          | cons c cs =>
              simp only [vecLe] at h1 h2 ⊢
              split_ifs at h1 h2 ⊢ with g1 g2 g3 g4 g5 g6 <;>
                first
                  | rfl
                  | omega
                  | (exact ih bs cs h1 h2)

/-- The Python sort order on dict items, as a relation. -/
def pairRel (x y : Key × ℚ) : Prop := pairLe x y = true

instance : DecidableRel pairRel := fun x y => by
  unfold pairRel
  infer_instance

instance : IsTotal (Key × ℚ) pairRel := by
  constructor
  intro x y
  unfold pairRel pairLe
  by_cases h1 : y.2 < x.2
  · left; simp [h1]
  · by_cases h2 : x.2 < y.2
    · right; simp [h2, h1]
    · simp only [h1, h2, if_false]
      exact vecLe_total _ _

theorem pairLe_iff (x y : Key × ℚ) :
    pairLe x y = true ↔
      y.2 < x.2 ∨ (x.2 = y.2 ∧ vecLe x.1.vec y.1.vec = true) := by
  unfold pairLe
  split_ifs with h1 h2
  · simp [h1]
  · simp [h1, ne_of_lt h2]
  · have heq : x.2 = y.2 := le_antisymm (not_lt.1 h1) (not_lt.1 h2)
    simp [h1, heq]

instance : IsTrans (Key × ℚ) pairRel := by
  constructor
  intro x y z h1 h2
  unfold pairRel at h1 h2 ⊢
  rcases (pairLe_iff x y).1 h1 with hlt | ⟨heq, hv⟩ <;>
    rcases (pairLe_iff y z).1 h2 with hlt2 | ⟨heq2, hv2⟩ <;>
    apply (pairLe_iff x z).2
  · left; linarith
  · left; rw [← heq2]; exact hlt
  · left; rw [heq]; exact hlt2
  · right; exact ⟨heq.trans heq2, vecLe_trans _ _ _ hv hv2⟩

/-- C7 (amended).  Every Chance-shaped successor list is sorted by
descending probability with ties broken by the ascending structural
(Python tuple) order of the successor keys — not by ascending BFS
NodeId, which the tie order does not always match. -/
theorem claim_C7 :
    (∀ (s : GameState) (a : Act),
      List.Sorted pairRel (getSuccessorsB s a)) ∧
    (∀ (s : GameState) (side : ℕ) (a : Act),
      List.Sorted pairRel (getSuccessorsC s side a)) := by
  constructor
  · intro s a
    exact List.sorted_insertionSort pairRel _
  · intro s side a
    exact List.sorted_insertionSort pairRel _

theorem posOf_append_some {κ : Type} [DecidableEq κ] {l : List κ} {k : κ}
    {i : ℕ} (h : posOf l k = some i) (l' : List κ) :
    posOf (l ++ l') k = some i := by
  induction l generalizing i with
  | nil => exact absurd h (by simp [posOf])
  | cons x xs ih =>
      by_cases hk : k = x
      · simp only [posOf, hk, if_pos] at h ⊢
        exact h
      · simp only [posOf, hk, if_false, List.cons_append] at h ⊢
        obtain ⟨j, hj, hji⟩ := Option.map_eq_some'.1 h
        exact Option.map_eq_some'.2 ⟨j, ih hj, hji⟩

theorem allocIds_states {κ : Type} [DecidableEq κ] :
    ∀ (ks states q : List κ), ∃ t,
      (allocIds states q ks).2.1 = states ++ t ∧
      (allocIds states q ks).2.2 = q ++ t := by
  intro ks
  induction ks with
  | nil => exact fun states q => ⟨[], by simp [allocIds]⟩
  | cons k ks ih =>
      intro states q
      unfold allocIds
      cases hp : posOf states k with
      | some i =>
          obtain ⟨t, h1, h2⟩ := ih states q
          exact ⟨t, h1, h2⟩
      | none =>
          obtain ⟨t, h1, h2⟩ := ih (states ++ [k]) (q ++ [k])
          exact ⟨[k] ++ t, by simp [h1], by simp [h2]⟩

theorem allocPairs_states {κ : Type} [DecidableEq κ] :
    ∀ (ks : List (κ × ℚ)) (states q : List κ), ∃ t,
      (allocPairs states q ks).2.1 = states ++ t ∧
      (allocPairs states q ks).2.2 = q ++ t := by
  intro ks
  induction ks with
  | nil => exact fun states q => ⟨[], by simp [allocPairs]⟩
  | cons kp ks ih =>
      intro states q
      unfold allocPairs
      cases hp : posOf states kp.1 with
      | some i =>
          obtain ⟨t, h1, h2⟩ := ih states q
          exact ⟨t, h1, h2⟩
      | none =>
          obtain ⟨t, h1, h2⟩ := ih (states ++ [kp.1]) (q ++ [kp.1])
          exact ⟨[kp.1] ++ t, by simp [h1], by simp [h2]⟩

theorem buildAux_states_mono {κ : Type} [DecidableEq κ] (Gr : κ → Node κ) :
    ∀ (fuel : ℕ) (q states : List κ) (kinds : List ℕ)
      (ss : List (Option (List ℕ))) (sp : List (Option (List (ℕ × ℚ))))
      (g : BuiltGraph κ), buildAux Gr fuel q states kinds ss sp = some g →
      ∃ t, g.states = states ++ t := by
  intro fuel
  induction fuel with
  | zero =>
      intro q states kinds ss sp g hg
      cases q with
      | nil =>
          simp only [buildAux, Option.some.injEq] at hg
          exact ⟨[], by rw [← hg]; simp⟩
      | cons k q => exact absurd hg (by simp [buildAux])
  | succ fuel ih =>
      intro q states kinds ss sp g hg
      cases q with
      | nil =>
          simp only [buildAux, Option.some.injEq] at hg
          exact ⟨[], by rw [← hg]; simp⟩
      | cons k q =>
          cases hG : Gr k with
          | choice s0 rest =>
              simp only [buildAux, hG] at hg
              obtain ⟨t1, h1, h2⟩ := allocIds_states (s0 :: rest) states q
              rw [h1] at hg
              obtain ⟨t2, h3⟩ := ih _ _ _ _ _ _ hg
              exact ⟨t1 ++ t2, by rw [h3]; simp⟩
          | chance outs =>
              simp only [buildAux, hG] at hg
              obtain ⟨t1, h1, h2⟩ := allocPairs_states outs states q
              rw [h1] at hg
              obtain ⟨t2, h3⟩ := ih _ _ _ _ _ _ hg
              exact ⟨t1 ++ t2, by rw [h3]; simp⟩
          | terminal =>
              simp only [buildAux, hG] at hg
              exact ih _ _ _ _ _ _ hg

theorem buildStates_mono {κ : Type} [DecidableEq κ] (Gr : κ → Node κ) :
    ∀ (fuelP fuel : ℕ) (q states : List κ) (kinds : List ℕ)
      (ss : List (Option (List ℕ))) (sp : List (Option (List (ℕ × ℚ))))
      (g : BuiltGraph κ), buildAux Gr fuel q states kinds ss sp = some g →
      ∃ t, g.states = buildStates Gr fuelP q states ++ t := by
  intro fuelP
  induction fuelP with
  | zero =>
      intro fuel q states kinds ss sp g hg
      cases q with
      | nil =>
          cases fuel <;> simp only [buildAux, Option.some.injEq] at hg <;>
            exact ⟨[], by rw [← hg]; simp [buildStates]⟩
      | cons k q =>
          simp only [buildStates]
          exact buildAux_states_mono Gr fuel _ _ _ _ _ g hg
  | succ fuelP ih =>
      intro fuel q states kinds ss sp g hg
      cases q with
      | nil =>
          cases fuel <;> simp only [buildAux, Option.some.injEq] at hg <;>
            exact ⟨[], by rw [← hg]; simp [buildStates]⟩
      | cons k q =>
          cases fuel with
          | zero => exact absurd hg (by simp [buildAux])
          | succ fuel =>
              simp only [buildStates]
              cases hG : Gr k with
              | choice s0 rest =>
                  simp only [buildAux, hG] at hg
                  exact ih fuel _ _ _ _ _ g hg
              | chance outs =>
                  simp only [buildAux, hG] at hg
                  exact ih fuel _ _ _ _ _ g hg
              | terminal =>
                  simp only [buildAux, hG] at hg
                  exact ih fuel _ _ _ _ _ g hg

/-! ### The concrete C7 counterexample data -/

/-- The game state with the char side at 41 HP (one 33-damage
Bubblebeam below full) and the star side untouched. -/
def gsC7 : GameState := ({ charhalf with hp := 41 }, starhalf, 0)

/-- The offending chance node: `(1, gsC7, 'Dig')`. -/
def keyC7 : Key := .moveSel gsC7 .dig

/-- The successor at position 6 of its outcome list (char HP 8). -/
def keyC7a : Key := .outcome ({ charhalf with hp := 8 }, starhalf, 0) 0 .dig

/-- The successor at position 7 of its outcome list (char HP 9). -/
def keyC7b : Key := .outcome ({ charhalf with hp := 9 }, starhalf, 0) 0 .dig

/-- The first 25 BFS states (2 pops of `build_graph`); ids assigned in
this prefix are final, see `bfsIds_persist`. -/
def bfsPrefixC7 : List Key := buildStates battleG 2 [initKeyB] [initKeyB]

/-- Ids read off the BFS prefix persist into any completed
`build_graph` run: the states list is append-only. -/
theorem bfsIds_persist : ∀ (fB : ℕ) (g : BuiltGraph Key),
    buildGraph battleG fB initKeyB = some g →
    ∀ (k : Key) (i : ℕ), posOf bfsPrefixC7 k = some i →
      posOf g.states k = some i := by
  intro fB g hg k i hk
  obtain ⟨t, ht⟩ := buildStates_mono battleG 2 fB [initKeyB] [initKeyB] [] [] [] g hg
  rw [ht]
  exact posOf_append_some hk t

/-- The ordering the claim asserts: descending probability with ties
broken by ascending NodeId under the given id assignment. -/
def ordRelId (idf : Key → ℕ) (x y : Key × ℚ) : Prop :=
  y.2 < x.2 ∨ (x.2 = y.2 ∧ idf x.1 ≤ idf y.1)

instance (idf : Key → ℕ) : DecidableRel (ordRelId idf) := fun x y => by
  unfold ordRelId
  infer_instance

unseal Rat.add Rat.mul Rat.sub Rat.inv in
/-- Counterexample for C7 as stated: the reachable chance node
`(1, gsC7, 'Dig')` has outcomes at positions 6 and 7 with exactly equal
probability `117467/1297920` whose BFS ids are 18 and 13 — descending,
not ascending — so its outcome list is not sorted by descending
probability with ties broken by ascending NodeId. -/
theorem claim_C7_counterexample :
    Reach (succOf battleG) [initKeyB] keyC7 ∧
    battleG keyC7 = Node.chance (getSuccessorsB gsC7 .dig) ∧
    posOf bfsPrefixC7 keyC7a = some 18 ∧
    posOf bfsPrefixC7 keyC7b = some 13 ∧
    (getSuccessorsB gsC7 .dig).get? 6 = some (keyC7a, 117467/1297920) ∧
    (getSuccessorsB gsC7 .dig).get? 7 = some (keyC7b, 117467/1297920) ∧
    ¬ List.Pairwise (ordRelId fun k => (posOf bfsPrefixC7 k).getD 0)
        (getSuccessorsB gsC7 .dig) := by
  refine ⟨?_, rfl, by decide, by decide, by decide, by decide, by decide⟩
  exact Reach.step (Reach.step (Reach.step (Reach.step
    (Reach.root (List.mem_singleton.2 rfl))
    (show (Key.moveSel initialState .superPotion) ∈ succOf battleG initKeyB by decide))
    (show (Key.outcome initialState 1 .waterGun) ∈
      succOf battleG (.moveSel initialState .superPotion) by decide))
    (show (Key.propose gsC7) ∈
      succOf battleG (.outcome initialState 1 .waterGun) by decide))
    (show keyC7 ∈ succOf battleG (.propose gsC7) by decide)

/-! ## C5 development: positions, rows, the BFS invariant -/

theorem posOf_get {κ : Type} [DecidableEq κ] :
    ∀ {l : List κ} {k : κ} {i : ℕ}, posOf l k = some i → l.get? i = some k := by
  intro l
  induction l with
  | nil => intro k i h; exact absurd h (by simp [posOf])
  | cons x xs ih =>
      intro k i h
      by_cases hk : k = x
      · simp only [posOf, hk, if_pos] at h
        have h0 : (0 : ℕ) = i := Option.some.inj h
        subst h0
        rw [List.get?_cons_zero]
        rw [hk]
      · simp only [posOf, hk, if_false] at h
        obtain ⟨j, hj, hji⟩ := Option.map_eq_some'.1 h
        subst hji
        rw [List.get?_cons_succ]
        exact ih hj

theorem posOf_lt {κ : Type} [DecidableEq κ] {l : List κ} {k : κ} {i : ℕ}
    (h : posOf l k = some i) : i < l.length := by
  obtain ⟨hi, _⟩ := List.get?_eq_some.1 (posOf_get h)
  exact hi

theorem posOf_mem {κ : Type} [DecidableEq κ] {l : List κ} {k : κ} {i : ℕ}
    (h : posOf l k = some i) : k ∈ l :=
  List.get?_mem (posOf_get h)

theorem posOf_inj {κ : Type} [DecidableEq κ] {l : List κ} {k₁ k₂ : κ} {i : ℕ}
    (h₁ : posOf l k₁ = some i) (h₂ : posOf l k₂ = some i) : k₁ = k₂ :=
  Option.some.inj ((posOf_get h₁).symm.trans (posOf_get h₂))

theorem posOf_isSome_of_mem {κ : Type} [DecidableEq κ] {l : List κ} {k : κ}
    (h : k ∈ l) : ∃ i, posOf l k = some i := by
  induction l with
  | nil => exact absurd h (List.not_mem_nil k)
  | cons x xs ih =>
      by_cases hk : k = x
      · exact ⟨0, by simp [posOf, hk]⟩
      · rcases List.mem_cons.1 h with h' | h'
        · exact absurd h' hk
        · obtain ⟨j, hj⟩ := ih h'
          exact ⟨j + 1, by simp [posOf, hk, hj]⟩

theorem posOf_append_self {κ : Type} [DecidableEq κ] :
    ∀ {l : List κ} {k : κ}, posOf l k = none →
      posOf (l ++ [k]) k = some l.length := by
  intro l
  induction l with
  | nil => intro k _; simp [posOf]
  | cons x xs ih =>
      intro k h
      by_cases hk : k = x
      · rw [hk] at h; simp [posOf] at h
      · simp only [posOf, hk, if_false, Option.map_eq_none'] at h
        simp [posOf, hk, ih h]

theorem getD_of_get? {α : Type} {l : List α} {i : ℕ} {a : α} (d : α)
    (h : l.get? i = some a) : l.getD i d = a := by
  induction l generalizing i with
  | nil => simp at h
  | cons x xs ih =>
      cases i with
      | zero =>
          rw [List.get?_cons_zero] at h
          rw [List.getD_cons_zero]
          exact Option.some.inj h
      | succ n =>
          rw [List.get?_cons_succ] at h
          rw [List.getD_cons_succ]
          exact ih h

theorem get?_append_of_some {α : Type} {l : List α} {i : ℕ} {a : α}
    (h : l.get? i = some a) (t : List α) : (l ++ t).get? i = some a := by
  obtain ⟨hi, _⟩ := List.get?_eq_some.1 h
  rw [List.get?_append hi]
  exact h

theorem forall₂_mem_left {α β : Type} {R : α → β → Prop} {l : List α}
    {u : List β} {a : α} (h : List.Forall₂ R l u) (ha : a ∈ l) :
    ∃ b, b ∈ u ∧ R a b := by
  induction h with
  | nil => exact absurd ha (List.not_mem_nil a)
  | cons hr ht ih =>
      rcases List.mem_cons.1 ha with h' | h'
      · exact ⟨_, List.mem_cons_self _ _, h' ▸ hr⟩
      · obtain ⟨b, hb, hrb⟩ := ih h'
        exact ⟨b, List.mem_cons_of_mem _ hb, hrb⟩

/-- One row of the compacted arrays encodes one node of the key graph:
the `kinds` tag, the choice-successor ids or the chance
`(id, probability)` pairs, each id being the position of the successor
key in the `states` list (`id_of`). -/
def rowEnc {κ : Type} [DecidableEq κ] (states : List κ) :
    Node κ → ℕ → Option (List ℕ) → Option (List (ℕ × ℚ)) → Prop
  | .choice s0 rest, kd, so, po => kd = 0 ∧ po = none ∧
      ∃ ids, so = some ids ∧
        List.Forall₂ (fun kk jj => posOf states kk = some jj) (s0 :: rest) ids
  | .chance outs, kd, so, po => kd = 1 ∧ so = none ∧
      ∃ prs, po = some prs ∧
        List.Forall₂ (fun kp jp => posOf states kp.1 = some jp.1 ∧ kp.2 = jp.2)
          outs prs
  | .terminal, kd, so, po => kd = 4 ∧ so = some [] ∧ po = some []

/-- Row `i` of the arrays correctly describes the node of the `i`-th
state key. -/
def RowOK {κ : Type} [DecidableEq κ] (Gr : κ → Node κ) (states : List κ)
    (kinds : List ℕ) (ss : List (Option (List ℕ)))
    (sp : List (Option (List (ℕ × ℚ)))) (i : ℕ) : Prop :=
  ∃ k kd so po, states.get? i = some k ∧ kinds.get? i = some kd ∧
    ss.get? i = some so ∧ sp.get? i = some po ∧ rowEnc states (Gr k) kd so po

theorem rowEnc_append {κ : Type} [DecidableEq κ] {states : List κ}
    (nd : Node κ) {kd : ℕ} {so : Option (List ℕ)}
    {po : Option (List (ℕ × ℚ))} (t : List κ)
    (h : rowEnc states nd kd so po) : rowEnc (states ++ t) nd kd so po := by
  cases nd with
  | choice s0 rest =>
      obtain ⟨h1, h2, ids, h3, h4⟩ := h
      exact ⟨h1, h2, ids, h3,
        List.Forall₂.imp (fun a b hab => posOf_append_some hab t) h4⟩
  | chance outs =>
      obtain ⟨h1, h2, prs, h3, h4⟩ := h
      exact ⟨h1, h2, prs, h3,
        List.Forall₂.imp (fun a b hab => ⟨posOf_append_some hab.1 t, hab.2⟩) h4⟩
  | terminal => exact h

theorem RowOK_extend {κ : Type} [DecidableEq κ] {Gr : κ → Node κ}
    {states : List κ} {kinds : List ℕ} {ss : List (Option (List ℕ))}
    {sp : List (Option (List (ℕ × ℚ)))} {i : ℕ}
    (h : RowOK Gr states kinds ss sp i) (t : List κ) (tk : List ℕ)
    (ts : List (Option (List ℕ))) (tp : List (Option (List (ℕ × ℚ)))) :
    RowOK Gr (states ++ t) (kinds ++ tk) (ss ++ ts) (sp ++ tp) i := by
  obtain ⟨k, kd, so, po, h1, h2, h3, h4, h5⟩ := h
  exact ⟨k, kd, so, po, get?_append_of_some h1 t, get?_append_of_some h2 tk,
    get?_append_of_some h3 ts, get?_append_of_some h4 tp,
    rowEnc_append _ t h5⟩

/-- The loop invariant of `build_graph`: the rows written so far are one
per processed state, the queue is exactly the unprocessed suffix of the
states list, and every written row correctly encodes its node. -/
def BInv {κ : Type} [DecidableEq κ] (Gr : κ → Node κ) (q states : List κ)
    (kinds : List ℕ) (ss : List (Option (List ℕ)))
    (sp : List (Option (List (ℕ × ℚ)))) : Prop :=
  ss.length = kinds.length ∧ sp.length = kinds.length ∧
  kinds.length ≤ states.length ∧
  q = states.drop kinds.length ∧
  ∀ i < kinds.length, RowOK Gr states kinds ss sp i

/-- What `build_graph` guarantees on completion: every row encodes its
node. -/
def BFinal {κ : Type} [DecidableEq κ] (Gr : κ → Node κ)
    (g : BuiltGraph κ) : Prop :=
  ∀ i < g.states.length, RowOK Gr g.states g.kinds g.succStates g.succPairs i

theorem allocIds_ids {κ : Type} [DecidableEq κ] :
    ∀ (ks states q : List κ),
      List.Forall₂ (fun kk jj => posOf (allocIds states q ks).2.1 kk = some jj)
        ks (allocIds states q ks).1 := by
  intro ks
  induction ks with
  | nil => intro states q; exact List.Forall₂.nil
  | cons k ks ih =>
      intro states q
      cases hp : posOf states k with
      | some i =>
          simp only [allocIds, hp]
          refine List.Forall₂.cons ?_ (ih states q)
          obtain ⟨t, h1, _⟩ := allocIds_states ks states q
          rw [h1]
          exact posOf_append_some hp t
      | none =>
          simp only [allocIds, hp]
          refine List.Forall₂.cons ?_ (ih (states ++ [k]) (q ++ [k]))
          obtain ⟨t, h1, _⟩ := allocIds_states ks (states ++ [k]) (q ++ [k])
          rw [h1]
          exact posOf_append_some (posOf_append_self hp) t

theorem allocPairs_ids {κ : Type} [DecidableEq κ] :
    ∀ (ks : List (κ × ℚ)) (states q : List κ),
      List.Forall₂
        (fun kp jp => posOf (allocPairs states q ks).2.1 kp.1 = some jp.1 ∧
          kp.2 = jp.2)
        ks (allocPairs states q ks).1 := by
  intro ks
  induction ks with
  | nil => intro states q; exact List.Forall₂.nil
  | cons kp ks ih =>
      intro states q
      cases hp : posOf states kp.1 with
      | some i =>
          simp only [allocPairs, hp]
          refine List.Forall₂.cons ⟨?_, rfl⟩ (ih states q)
          obtain ⟨t, h1, _⟩ := allocPairs_states ks states q
          rw [h1]
          exact posOf_append_some hp t
      | none =>
          simp only [allocPairs, hp]
          refine List.Forall₂.cons ⟨?_, rfl⟩ (ih (states ++ [kp.1]) (q ++ [kp.1]))
          obtain ⟨t, h1, _⟩ := allocPairs_states ks (states ++ [kp.1]) (q ++ [kp.1])
          rw [h1]
          exact posOf_append_some (posOf_append_self hp) t

theorem RowOK_extend_rows {κ : Type} [DecidableEq κ] {Gr : κ → Node κ}
    {states : List κ} {kinds : List ℕ} {ss : List (Option (List ℕ))}
    {sp : List (Option (List (ℕ × ℚ)))} {i : ℕ}
    (h : RowOK Gr states kinds ss sp i) (tk : List ℕ)
    (ts : List (Option (List ℕ))) (tp : List (Option (List (ℕ × ℚ)))) :
    RowOK Gr states (kinds ++ tk) (ss ++ ts) (sp ++ tp) i := by
  obtain ⟨k, kd, so, po, h1, h2, h3, h4, h5⟩ := h
  exact ⟨k, kd, so, po, h1, get?_append_of_some h2 tk,
    get?_append_of_some h3 ts, get?_append_of_some h4 tp, h5⟩

/-- The `while q:` loop of `build_graph` preserves the invariant and,
when it completes, every row of the result encodes its node. -/
theorem buildAux_spec {κ : Type} [DecidableEq κ] (Gr : κ → Node κ) :
    ∀ (fuel : ℕ) (q states : List κ) (kinds : List ℕ)
      (ss : List (Option (List ℕ))) (sp : List (Option (List (ℕ × ℚ))))
      (g : BuiltGraph κ),
      BInv Gr q states kinds ss sp →
      buildAux Gr fuel q states kinds ss sp = some g →
      BFinal Gr g := by
  intro fuel
  induction fuel with
  | zero =>
      intro q states kinds ss sp g hinv hg
      cases q with
      | nil =>
          simp only [buildAux, Option.some.injEq] at hg
          subst hg
          obtain ⟨hss, hsp, hlen, hq, hrows⟩ := hinv
          have hle : states.length ≤ kinds.length := by
            have hlq := congrArg List.length hq
            simp only [List.length_nil, List.length_drop] at hlq
            omega
          intro i hi
          exact hrows i (by exact lt_of_lt_of_le hi hle)
      | cons k q => exact absurd hg (by simp [buildAux])
  | succ fuel ih =>
      intro q states kinds ss sp g hinv hg
      cases q with
      | nil =>
          simp only [buildAux, Option.some.injEq] at hg
          subst hg
          obtain ⟨hss, hsp, hlen, hq, hrows⟩ := hinv
          have hle : states.length ≤ kinds.length := by
            have hlq := congrArg List.length hq
            simp only [List.length_nil, List.length_drop] at hlq
            omega
          intro i hi
          exact hrows i (by exact lt_of_lt_of_le hi hle)
      | cons k q =>
          obtain ⟨hss, hsp, hlen, hq, hrows⟩ := hinv
          have hgetk : states.get? kinds.length = some k := by
            have h0 := List.get?_drop states kinds.length 0
            rw [← hq] at h0
            simpa using h0.symm
          have hlt : kinds.length < states.length := by
            obtain ⟨hi, _⟩ := List.get?_eq_some.1 hgetk
            exact hi
          have hq' : q = states.drop (kinds.length + 1) := by
            have ht := List.tail_drop states kinds.length
            rw [← hq] at ht
            simpa using ht
          cases hG : Gr k with
          | choice s0 rest =>
              simp only [buildAux, hG] at hg
              obtain ⟨t, h1, h2⟩ := allocIds_states (s0 :: rest) states q
              have hids := allocIds_ids (s0 :: rest) states q
              rw [h1] at hids
              rw [h1, h2] at hg
              refine ih _ _ _ _ _ _ ⟨by simp [hss], by simp [hsp], ?_, ?_, ?_⟩ hg
              · simp only [List.length_append, List.length_singleton]
                omega
              · simp only [List.length_append, List.length_singleton]
                rw [List.drop_append_eq_append_drop]
                have hz : kinds.length + 1 - states.length = 0 := by omega
                rw [hz, List.drop_zero, ← hq']
              · intro i hi
                simp only [List.length_append, List.length_singleton] at hi
                by_cases hik : i < kinds.length
                · exact RowOK_extend (hrows i hik) t [0]
                    [some (allocIds states q (s0 :: rest)).1] [none]
                · have hieq : i = kinds.length := by omega
                  subst hieq
                  refine ⟨k, 0, some (allocIds states q (s0 :: rest)).1, none,
                    get?_append_of_some hgetk t, ?_, ?_, ?_, ?_⟩
                  · exact List.get?_concat_length kinds 0
                  · rw [← hss]
                    exact List.get?_concat_length ss _
                  · rw [← hsp]
                    exact List.get?_concat_length sp _
                  · rw [hG]
                    exact ⟨rfl, rfl, (allocIds states q (s0 :: rest)).1, rfl, hids⟩
          | chance outs =>
              simp only [buildAux, hG] at hg
              obtain ⟨t, h1, h2⟩ := allocPairs_states outs states q
              have hids := allocPairs_ids outs states q
              rw [h1] at hids
              rw [h1, h2] at hg
              refine ih _ _ _ _ _ _ ⟨by simp [hss], by simp [hsp], ?_, ?_, ?_⟩ hg
              · simp only [List.length_append, List.length_singleton]
                omega
              · simp only [List.length_append, List.length_singleton]
                rw [List.drop_append_eq_append_drop]
                have hz : kinds.length + 1 - states.length = 0 := by omega
                rw [hz, List.drop_zero, ← hq']
              · intro i hi
                simp only [List.length_append, List.length_singleton] at hi
                by_cases hik : i < kinds.length
                · exact RowOK_extend (hrows i hik) t [1] [none]
                    [some (allocPairs states q outs).1]
                · have hieq : i = kinds.length := by omega
                  subst hieq
                  refine ⟨k, 1, none, some (allocPairs states q outs).1,
                    get?_append_of_some hgetk t, ?_, ?_, ?_, ?_⟩
                  · exact List.get?_concat_length kinds 1
                  · rw [← hss]
                    exact List.get?_concat_length ss _
                  · rw [← hsp]
                    exact List.get?_concat_length sp _
                  · rw [hG]
                    exact ⟨rfl, rfl, (allocPairs states q outs).1, rfl, hids⟩
          | terminal =>
              simp only [buildAux, hG] at hg
              refine ih _ _ _ _ _ _ ⟨by simp [hss], by simp [hsp], ?_, ?_, ?_⟩ hg
              · simp only [List.length_append, List.length_singleton]
                omega
              · simp only [List.length_append, List.length_singleton]
                exact hq'
              · intro i hi
                simp only [List.length_append, List.length_singleton] at hi
                by_cases hik : i < kinds.length
                · exact RowOK_extend_rows (hrows i hik) [4] [some []] [some []]
                · have hieq : i = kinds.length := by omega
                  subst hieq
                  refine ⟨k, 4, some [], some [], hgetk, ?_, ?_, ?_, ?_⟩
                  · exact List.get?_concat_length kinds 4
                  · rw [← hss]
                    exact List.get?_concat_length ss _
                  · rw [← hsp]
                    exact List.get?_concat_length sp _
                  · rw [hG]
                    exact ⟨rfl, rfl, rfl⟩

/-- A completed `build_graph` run yields correct rows and puts the root
at position 0. -/
theorem buildGraph_spec {κ : Type} [DecidableEq κ] {Gr : κ → Node κ}
    {fuel : ℕ} {root : κ} {g : BuiltGraph κ}
    (h : buildGraph Gr fuel root = some g) :
    BFinal Gr g ∧ posOf g.states root = some 0 := by
  unfold buildGraph at h
  constructor
  · refine buildAux_spec Gr fuel [root] [root] [] [] [] g ⟨rfl, rfl, ?_, rfl, ?_⟩ h
    · simp
    · intro i hi
      exact absurd hi (by simp)
  · obtain ⟨t, ht⟩ := buildAux_states_mono Gr fuel [root] [root] [] [] [] g h
    rw [ht]
    simp [posOf]

/-- The compacted graph is successor-closed: every successor of a state
key has a position. -/
theorem BFinal_closed {κ : Type} [DecidableEq κ] {Gr : κ → Node κ}
    {g : BuiltGraph κ} (hfin : BFinal Gr g) :
    ∀ k ∈ g.states, ∀ p ∈ succOf Gr k, ∃ j, posOf g.states p = some j := by
  intro k hk p hp
  obtain ⟨i, hi⟩ := List.get?_of_mem hk
  obtain ⟨hil, _⟩ := List.get?_eq_some.1 hi
  obtain ⟨k', kd, so, po, h1, h2, h3, h4, h5⟩ := hfin i hil
  have hk2 : k = k' := (Option.some.inj (h1.symm.trans hi)).symm
  subst hk2
  cases hG : Gr k with
  | choice s0 rest =>
      rw [hG] at h5
      obtain ⟨_, _, ids, _, h6⟩ := h5
      simp only [succOf, hG] at hp
      obtain ⟨j, _, hj⟩ := forall₂_mem_left h6 hp
      exact ⟨j, hj⟩
  | chance outs =>
      rw [hG] at h5
      obtain ⟨_, _, prs, _, h6⟩ := h5
      simp only [succOf, hG] at hp
      rw [List.mem_map] at hp
      obtain ⟨kp, hkp, hkp1⟩ := hp
      obtain ⟨jp, _, hj⟩ := forall₂_mem_left h6 hkp
      exact ⟨jp.1, hkp1 ▸ hj.1⟩
  | terminal =>
      simp only [succOf, hG] at hp
      exact absurd hp (List.not_mem_nil p)

/-- Completeness: every key reachable from the root is in the states
list of a completed `build_graph` run. -/
theorem reach_mem_states {κ : Type} [DecidableEq κ] {Gr : κ → Node κ}
    {g : BuiltGraph κ} {root : κ} (hfin : BFinal Gr g)
    (hroot : root ∈ g.states) :
    ∀ k, Reach (succOf Gr) [root] k → k ∈ g.states := by
  intro k hk
  induction hk with
  | root hr =>
      rw [List.mem_singleton] at hr
      exact hr ▸ hroot
  | step _ hp ih =>
      obtain ⟨j, hj⟩ := BFinal_closed hfin _ ih _ hp
      exact posOf_mem hj

theorem fupd_at {κ : Type} [DecidableEq κ] (f : κ → ℚ) (k : κ) (v : ℚ) :
    fupd f k v k = v := by
  simp [fupd]

/-- The simulation relation between the dict-based solver state over
keys and the array-based solver state over ids: they agree at every key
with a position. -/
def Corr {κ : Type} [DecidableEq κ] (g : BuiltGraph κ) (sm : SState κ)
    (sa : SState ℕ) : Prop :=
  ∀ k i, posOf g.states k = some i →
    sm.dmin k = sa.dmin i ∧ sm.dmax k = sa.dmax i ∧ sm.frozen k = sa.frozen i

theorem Corr_write {κ : Type} [DecidableEq κ] {g : BuiltGraph κ}
    {sm : SState κ} {sa : SState ℕ} (hC : Corr g sm sa) {k : κ} {i : ℕ}
    (hpos : posOf g.states k = some i) (x y : ℚ) :
    Corr g ⟨fupd sm.dmin k x, fupd sm.dmax k y, sm.frozen⟩
      ⟨fupd sa.dmin i x, fupd sa.dmax i y, sa.frozen⟩ := by
  intro k' j hp'
  obtain ⟨h1, h2, h3⟩ := hC k' j hp'
  by_cases hk' : k' = k
  · subst hk'
    have hj : j = i := Option.some.inj (hp'.symm.trans hpos)
    subst hj
    simp [fupd, h3]
  · have hj : ¬ j = i := fun hji => hk' (posOf_inj hp' (hji ▸ hpos))
    simp [fupd, hk', hj, h1, h2, h3]

theorem Corr_freezeWrite {κ : Type} [DecidableEq κ] {g : BuiltGraph κ}
    {sm : SState κ} {sa : SState ℕ} (hC : Corr g sm sa) {k : κ} {i : ℕ}
    (hpos : posOf g.states k = some i) (x : ℚ) :
    Corr g ⟨fupd sm.dmin k x, fupd sm.dmax k x,
        fun j => if j = k then true else sm.frozen j⟩
      ⟨fupd sa.dmin i x, fupd sa.dmax i x,
        fun j => if j = i then true else sa.frozen j⟩ := by
  intro k' j hp'
  obtain ⟨h1, h2, h3⟩ := hC k' j hp'
  by_cases hk' : k' = k
  · subst hk'
    have hj : j = i := Option.some.inj (hp'.symm.trans hpos)
    subst hj
    simp [fupd]
  · have hj : ¬ j = i := fun hji => hk' (posOf_inj hp' (hji ▸ hpos))
    simp [fupd, hk', hj, h1, h2, h3]

theorem nodeAtArr_choice {κ : Type} [DecidableEq κ] {Gr : κ → Node κ}
    {g : BuiltGraph κ} (hfin : BFinal Gr g) {k : κ} {i : ℕ}
    (hpos : posOf g.states k = some i) {s0 : κ} {rest : List κ}
    (hG : Gr k = .choice s0 rest) :
    ∃ j0 js, nodeAtArr g i = .choice j0 js ∧
      List.Forall₂ (fun kk jj => posOf g.states kk = some jj)
        (s0 :: rest) (j0 :: js) := by
  obtain ⟨k', kd, so, po, h1, h2, h3, h4, h5⟩ := hfin i (posOf_lt hpos)
  have hk2 : k = k' := (Option.some.inj (h1.symm.trans (posOf_get hpos))).symm
  subst hk2
  rw [hG] at h5
  obtain ⟨hkd, hpo, ids, hso, h6⟩ := h5
  subst hkd hso hpo
  cases h6 with
  | cons hr ht =>
      rename_i j0 js
      refine ⟨j0, js, ?_, List.Forall₂.cons hr ht⟩
      have hkd' : g.kinds.getD i 4 = 0 := getD_of_get? 4 h2
      have hso' : g.succStates.getD i none = some (j0 :: js) :=
        getD_of_get? none h3
      unfold nodeAtArr
      rw [hkd', if_pos rfl, hso']
      rfl

theorem nodeAtArr_chance {κ : Type} [DecidableEq κ] {Gr : κ → Node κ}
    {g : BuiltGraph κ} (hfin : BFinal Gr g) {k : κ} {i : ℕ}
    (hpos : posOf g.states k = some i) {outs : List (κ × ℚ)}
    (hG : Gr k = .chance outs) :
    ∃ prs, nodeAtArr g i = .chance prs ∧
      List.Forall₂ (fun kp jp => posOf g.states kp.1 = some jp.1 ∧
        kp.2 = jp.2) outs prs := by
  obtain ⟨k', kd, so, po, h1, h2, h3, h4, h5⟩ := hfin i (posOf_lt hpos)
  have hk2 : k = k' := (Option.some.inj (h1.symm.trans (posOf_get hpos))).symm
  subst hk2
  rw [hG] at h5
  obtain ⟨hkd, hso, prs, hpo, h6⟩ := h5
  subst hkd hso hpo
  refine ⟨prs, ?_, h6⟩
  have hkd' : g.kinds.getD i 4 = 1 := getD_of_get? 4 h2
  have hpo' : g.succPairs.getD i none = some prs := getD_of_get? none h4
  unfold nodeAtArr
  rw [hkd', if_neg (by decide), if_neg (by decide), hpo']
  rfl

theorem nodeAtArr_terminal {κ : Type} [DecidableEq κ] {Gr : κ → Node κ}
    {g : BuiltGraph κ} (hfin : BFinal Gr g) {k : κ} {i : ℕ}
    (hpos : posOf g.states k = some i) (hG : Gr k = .terminal) :
    nodeAtArr g i = .terminal := by
  obtain ⟨k', kd, so, po, h1, h2, h3, h4, h5⟩ := hfin i (posOf_lt hpos)
  have hk2 : k = k' := (Option.some.inj (h1.symm.trans (posOf_get hpos))).symm
  subst hk2
  rw [hG] at h5
  obtain ⟨hkd, hso, hpo⟩ := h5
  subst hkd hso hpo
  have hkd' : g.kinds.getD i 4 = 4 := getD_of_get? 4 h2
  unfold nodeAtArr
  rw [hkd', if_neg (by decide), if_pos rfl]

theorem foldl_max_forall₂ {κ : Type} {vm : κ → ℚ} {va : ℕ → ℚ}
    {ks : List κ} {js : List ℕ}
    (h : List.Forall₂ (fun kk jj => vm kk = va jj) ks js) :
    ∀ a : ℚ, ks.foldl (fun acc kk => max acc (vm kk)) a =
      js.foldl (fun acc jj => max acc (va jj)) a := by
  induction h with
  | nil => intro a; rfl
  | cons hr _ ih =>
      intro a
      simp only [List.foldl_cons]
      rw [hr]
      exact ih _

theorem foldl_sum_forall₂ {κ : Type} {vm : κ → ℚ} {va : ℕ → ℚ}
    {outs : List (κ × ℚ)} {prs : List (ℕ × ℚ)}
    (h : List.Forall₂ (fun kp jp => vm kp.1 = va jp.1 ∧ kp.2 = jp.2)
      outs prs) :
    ∀ a : ℚ, outs.foldl (fun acc kp => acc + vm kp.1 * kp.2) a =
      prs.foldl (fun acc jp => acc + va jp.1 * jp.2) a := by
  induction h with
  | nil => intro a; rfl
  | cons hr _ ih =>
      intro a
      simp only [List.foldl_cons]
      rw [hr.1, hr.2]
      exact ih _

/-- The per-node recompute agrees across the simulation: reading the
array row at the id gives the same value as reading the dict at the
key. -/
theorem FV_corr {κ : Type} [DecidableEq κ] {Gr : κ → Node κ}
    {g : BuiltGraph κ} (hfin : BFinal Gr g) {k : κ} {i : ℕ}
    (hpos : posOf g.states k = some i) {vm : κ → ℚ} {va : ℕ → ℚ}
    (hv : ∀ k' j, posOf g.states k' = some j → vm k' = va j) :
    FV (nodeAtArr g) va i = FV Gr vm k := by
  cases hG : Gr k with
  | choice s0 rest =>
      obtain ⟨j0, js, hna, h6⟩ := nodeAtArr_choice hfin hpos hG
      cases h6 with
      | cons hr ht =>
          simp only [FV, hna, hG]
          have hbase : vm s0 = va j0 := hv s0 j0 hr
          have hfold := foldl_max_forall₂
            (List.Forall₂.imp (fun a b hab => hv a b hab) ht) (vm s0)
          rw [← hbase]
          exact hfold.symm
  | chance outs =>
      obtain ⟨prs, hna, h6⟩ := nodeAtArr_chance hfin hpos hG
      simp only [FV, hna, hG]
      have hfold := foldl_sum_forall₂
        (List.Forall₂.imp (fun a b hab => ⟨hv a.1 b.1 hab.1, hab.2⟩) h6) 0
      exact hfold.symm
  | terminal =>
      have hna := nodeAtArr_terminal hfin hpos hG
      simp only [FV, hna, hG]
      exact (hv k i hpos).symm

/-- `updateKey` on an unfrozen terminal key: no recompute, only the
freeze guard on the stored bounds. -/
theorem updateKey_eq_term {κ : Type} [DecidableEq κ] {Gr : κ → Node κ}
    {s : SState κ} {k : κ} (hf : s.frozen k = false)
    (hG : Gr k = .terminal) :
    updateKey Gr s k =
      if s.dmax k ≤ s.dmin k then
        ⟨fupd s.dmin k ((s.dmin k + s.dmax k) / 2),
         fupd s.dmax k ((s.dmin k + s.dmax k) / 2),
         fun j => if j = k then true else s.frozen j⟩
      else s := by
  unfold updateKey
  rw [if_neg (by simp [hf]), hG]

/-- `updateKey` on an unfrozen non-terminal key: both bounds are
recomputed, then the freeze guard compares the recomputed values. -/
theorem updateKey_eq_nonterm {κ : Type} [DecidableEq κ] {Gr : κ → Node κ}
    {s : SState κ} {k : κ} (hf : s.frozen k = false)
    (hnt : Gr k ≠ .terminal) :
    updateKey Gr s k =
      if FV Gr s.dmax k ≤ FV Gr s.dmin k then
        ⟨fupd s.dmin k ((FV Gr s.dmin k + FV Gr s.dmax k) / 2),
         fupd s.dmax k ((FV Gr s.dmin k + FV Gr s.dmax k) / 2),
         fun j => if j = k then true else s.frozen j⟩
      else ⟨fupd s.dmin k (FV Gr s.dmin k), fupd s.dmax k (FV Gr s.dmax k),
        s.frozen⟩ := by
  unfold updateKey
  rw [if_neg (by simp [hf])]
  cases hG : Gr k with
  | terminal => exact absurd hG hnt
  | choice s0 rest =>
      dsimp only
      simp only [fupd_at, fupd_same]
  | chance outs =>
      dsimp only
      simp only [fupd_at, fupd_same]

/-- One inner sweep step preserves the simulation relation. -/
theorem updateKey_corr {κ : Type} [DecidableEq κ] {Gr : κ → Node κ}
    {g : BuiltGraph κ} (hfin : BFinal Gr g) {sm : SState κ} {sa : SState ℕ}
    (hC : Corr g sm sa) {k : κ} {i : ℕ}
    (hpos : posOf g.states k = some i) :
    Corr g (updateKey Gr sm k) (updateKey (nodeAtArr g) sa i) := by
  obtain ⟨hdmin, hdmax, hfro⟩ := hC k i hpos
  by_cases hf : sm.frozen k = true
  · have hfa : sa.frozen i = true := hfro ▸ hf
    unfold updateKey
    rw [if_pos hf, if_pos hfa]
    exact hC
  · have hf' : sm.frozen k = false := by
      cases hfb : sm.frozen k
      · rfl
      · exact absurd hfb hf
    have hfa' : sa.frozen i = false := hfro ▸ hf'
    by_cases hT : Gr k = .terminal
    · have hna : nodeAtArr g i = .terminal := nodeAtArr_terminal hfin hpos hT
      rw [updateKey_eq_term hf' hT, updateKey_eq_term hfa' hna,
        hdmin, hdmax]
      by_cases hc : sa.dmax i ≤ sa.dmin i
      · rw [if_pos hc, if_pos hc]
        exact Corr_freezeWrite hC hpos _
      · rw [if_neg hc, if_neg hc]
        exact hC
    · have hnaT : nodeAtArr g i ≠ .terminal := by
        cases hG : Gr k with
        | terminal => exact absurd hG hT
        | choice s0 rest =>
            obtain ⟨j0, js, hna, _⟩ := nodeAtArr_choice hfin hpos hG
            simp [hna]
        | chance outs =>
            obtain ⟨prs, hna, _⟩ := nodeAtArr_chance hfin hpos hG
            simp [hna]
      have hvmin : FV (nodeAtArr g) sa.dmin i = FV Gr sm.dmin k :=
        FV_corr hfin hpos fun k' j h => (hC k' j h).1
      have hvmax : FV (nodeAtArr g) sa.dmax i = FV Gr sm.dmax k :=
        FV_corr hfin hpos fun k' j h => (hC k' j h).2.1
      rw [updateKey_eq_nonterm hf' hT, updateKey_eq_nonterm hfa' hnaT,
        hvmin, hvmax]
      by_cases hc : FV Gr sm.dmax k ≤ FV Gr sm.dmin k
      · rw [if_pos hc, if_pos hc]
        exact Corr_freezeWrite hC hpos _
      · rw [if_neg hc, if_neg hc]
        exact Corr_write hC hpos _ _

theorem sweep_cons {κ : Type} [DecidableEq κ] (Gr : κ → Node κ) (o : κ)
    (os : List κ) (s : SState κ) :
    sweep Gr (o :: os) s = sweep Gr os (updateKey Gr s o) := rfl

/-- A full sweep over the order preserves the simulation relation when
every order key has a position. -/
theorem sweep_corr {κ : Type} [DecidableEq κ] {Gr : κ → Node κ}
    {g : BuiltGraph κ} (hfin : BFinal Gr g) :
    ∀ (order : List κ) (sm : SState κ) (sa : SState ℕ), Corr g sm sa →
      (∀ o ∈ order, ∃ j, posOf g.states o = some j) →
      Corr g (sweep Gr order sm)
        (sweep (nodeAtArr g) (order.map fun o => (posOf g.states o).getD 0)
          sa) := by
  intro order
  induction order with
  | nil => intro sm sa hC _; exact hC
  | cons o os ih =>
      intro sm sa hC hord
      obtain ⟨j, hj⟩ := hord o (List.mem_cons_self _ _)
      have hφ : (posOf g.states o).getD 0 = j := by rw [hj]; rfl
      rw [List.map_cons, sweep_cons, sweep_cons, hφ]
      exact ih _ _ (updateKey_corr hfin hC hj)
        fun o' ho' => hord o' (List.mem_cons_of_mem _ ho')

/-- The fueled while loop preserves the simulation relation: both
solvers test the same root interval and perform the same sweeps. -/
theorem loopN_corr {κ : Type} [DecidableEq κ] {Gr : κ → Node κ}
    {g : BuiltGraph κ} (hfin : BFinal Gr g) {root : κ} {ir : ℕ}
    (hroot : posOf g.states root = some ir) (order : List κ)
    (hord : ∀ o ∈ order, ∃ j, posOf g.states o = some j) (tol : ℚ) :
    ∀ (fuel : ℕ) (sm : SState κ) (sa : SState ℕ), Corr g sm sa →
      Corr g (loopN Gr order root tol fuel sm)
        (loopN (nodeAtArr g) (order.map fun o => (posOf g.states o).getD 0)
          ir tol fuel sa) := by
  intro fuel
  induction fuel with
  | zero => intro sm sa hC; exact hC
  | succ fuel ih =>
      intro sm sa hC
      obtain ⟨h1, h2, _⟩ := hC root ir hroot
      unfold loopN
      rw [h1, h2]
      by_cases hc : tol < sa.dmax ir - sa.dmin ir
      · rw [if_pos hc, if_pos hc]
        exact ih _ _ (sweep_corr hfin order sm sa hC hord)
      · rw [if_neg hc, if_neg hc]
        exact hC

theorem initArr_dmin {κ : Type} [DecidableEq κ] (g : BuiltGraph κ)
    (wk lk : κ) (i : ℕ) :
    (initArr g wk lk).dmin i = if posOf g.states wk = some i then 1 else 0 := by
  unfold initArr
  cases hl : posOf g.states lk <;> cases hw : posOf g.states wk <;>
    simp [hl, hw, fupd, eq_comm]

theorem initArr_dmax {κ : Type} [DecidableEq κ] (g : BuiltGraph κ)
    (wk lk : κ) (i : ℕ) :
    (initArr g wk lk).dmax i = if posOf g.states lk = some i then 0 else 1 := by
  unfold initArr
  cases hl : posOf g.states lk <;> cases hw : posOf g.states wk <;>
    simp [hl, hw, fupd, eq_comm]

theorem initArr_frozen {κ : Type} [DecidableEq κ] (g : BuiltGraph κ)
    (wk lk : κ) (i : ℕ) :
    (initArr g wk lk).frozen i =
      (decide (posOf g.states wk = some i) ||
        decide (posOf g.states lk = some i)) := by
  unfold initArr
  cases hl : posOf g.states lk <;> cases hw : posOf g.states wk <;>
    simp [hl, hw, eq_comm]

/-- The array seeding of `mdp_opt3.py` matches the defaultdict seeding
of `mdp_opt2.py` across the id assignment. -/
theorem init_corr {κ : Type} [DecidableEq κ] (g : BuiltGraph κ)
    (wk lk : κ) : Corr g (initSState wk lk) (initArr g wk lk) := by
  intro k i hpos
  refine ⟨?_, ?_, ?_⟩
  · rw [initArr_dmin]
    unfold initSState
    dsimp only
    by_cases h : k = wk
    · subst h
      rw [if_pos rfl, if_pos hpos]
    · rw [if_neg h, if_neg fun hcon => h (posOf_inj hpos hcon)]
  · rw [initArr_dmax]
    unfold initSState
    dsimp only
    by_cases h : k = lk
    · subst h
      rw [if_pos rfl, if_pos hpos]
    · rw [if_neg h, if_neg fun hcon => h (posOf_inj hpos hcon)]
  · rw [initArr_frozen]
    unfold initSState
    dsimp only
    by_cases h1 : k = wk
    · subst h1
      simp [hpos]
    · by_cases h2 : k = lk
      · subst h2
        simp [hpos]
      · have hw' : ¬ posOf g.states wk = some i :=
          fun hcon => h1 (posOf_inj hpos hcon)
        have hl' : ¬ posOf g.states lk = some i :=
          fun hcon => h2 (posOf_inj hpos hcon)
        simp [h1, h2, hw', hl']

/-- The only textual difference between the two sweep bodies is the
freeze midpoint, `0.5 * (lo + hi)` against `(lo + hi) / 2.0`; the
values are equal. -/
theorem updateKeyC_eq {κ : Type} [DecidableEq κ] (Gr : κ → Node κ)
    (s : SState κ) (k : κ) : updateKeyC Gr s k = updateKey Gr s k := by
  unfold updateKeyC updateKey
  have hm : ∀ a b : ℚ, 1/2 * (a + b) = (a + b) / 2 := fun a b => by ring
  simp only [hm]

theorem sweepC_eq {κ : Type} [DecidableEq κ] (Gr : κ → Node κ)
    (order : List κ) (s : SState κ) :
    sweepC Gr order s = sweep Gr order s := by
  unfold sweepC sweep
  have h : updateKeyC Gr = updateKey Gr :=
    funext fun s => funext fun k => updateKeyC_eq Gr s k
  rw [h]

theorem loopC_eq {κ : Type} [DecidableEq κ] (Gr : κ → Node κ)
    (order : List κ) (root : κ) (tol : ℚ) :
    ∀ (fuel : ℕ) (s : SState κ),
      loopC Gr order root tol fuel s = loopN Gr order root tol fuel s := by
  intro fuel
  induction fuel with
  | zero => intro s; rfl
  | succ fuel ih =>
      intro s
      simp only [loopC, loopN]
      split_ifs
      · rw [sweepC_eq]
        exact ih _
      · rfl

/-- C5.  Whenever `build_graph` completes, the dense array-based
`Battle.evaluate` of `mdp_opt3.py` returns exactly the same value as the
dict-based `Battle.evaluate` of `mdp_opt2.py`, for every tolerance,
every traversal/sweep budget and every successor graph: the two solvers
test the same root interval, sweep the same `topoSort` order and perform
the same numeric updates in the same order. -/
theorem claim_C5 {κ : Type} [DecidableEq κ] (Gr : κ → Node κ)
    (root wk lk : κ) (tol : ℚ) (fuelT fuelB fuelL : ℕ) (g : BuiltGraph κ)
    (hg : buildGraph Gr fuelB root = some g) :
    evaluateArr Gr root wk lk tol fuelT fuelB fuelL =
      evaluateMap Gr root wk lk tol fuelT fuelL := by
  obtain ⟨hfin, hroot⟩ := buildGraph_spec hg
  have hrootmem : root ∈ g.states := posOf_mem hroot
  have hord : ∀ o ∈ (topoSortF (succOf Gr) fuelT [root]).getD [],
      ∃ j, posOf g.states o = some j := by
    intro o ho
    cases htopo : topoSortF (succOf Gr) fuelT [root] with
    | none =>
        rw [htopo] at ho
        exact absurd ho (List.not_mem_nil o)
    | some l =>
        rw [htopo] at ho
        have hol : o ∈ l := by simpa using ho
        have hreach : Reach (succOf Gr) [root] o :=
          ((topoSortF_spec _ _ _ _ htopo o).1).1 hol
        exact posOf_isSome_of_mem (reach_mem_states hfin hrootmem o hreach)
  have hcorr := loopN_corr hfin hroot
    ((topoSortF (succOf Gr) fuelT [root]).getD []) hord tol fuelL
    (initSState wk lk) (initArr g wk lk) (init_corr g wk lk)
  obtain ⟨h1, h2, _⟩ := hcorr root 0 hroot
  have hiInit : (posOf g.states root).getD 0 = 0 := by rw [hroot]; rfl
  simp only [evaluateArr, hg, evaluateMap]
  rw [hiInit]
  simp only [loopC_eq]
  rw [← h1, ← h2]
  ring

/-- Witness for C5 on the one-node terminal graph. -/
theorem claim_C5_witness :
    buildGraph (fun _ : ℕ => Node.terminal) 1 0 =
      some ⟨[0], [4], [some []], [some []]⟩ ∧
    evaluateArr (fun _ : ℕ => Node.terminal) 0 1 2 1 1 1 1 =
      evaluateMap (fun _ : ℕ => Node.terminal) 0 1 2 1 1 1 :=
  ⟨rfl, claim_C5 (fun _ : ℕ => Node.terminal) 0 1 2 1 1 1 1
    ⟨[0], [4], [some []], [some []]⟩ rfl⟩
